import Mathlib

/-!
Verification of the Bangladesh-Railway-Train-Report-Generator repository.

The repository's web layer (`app.py`) submits report-generation jobs to a
`RequestQueue` (module `request_queue`, whose implementation file is not part
of the sources here; it is modelled from the specification), polls job status,
and serves the produced PDF.  This file embeds:

* the request admission / execution queue as an explicit state machine whose
  atomic steps are the operations the spec declares to be performed under the
  store lock (`QUEUED → PROCESSING` test-and-set, cancel, heartbeat, sweep);
  concurrent executions are modelled as arbitrary interleavings (traces) of
  these atomic operations;
* the pure request-processing wrapper `process_report_request` from `app.py`;
* the filename validation logic of the `download_report` route, including the
  fact that `abort(404)` raises an exception that the route's blanket
  `except Exception` handler catches;
* the `extract_time_for_sorting` / `get_common_trains` pair from `app.py`,
  including Python's `int()` parsing and `"{:02d}"` formatting semantics.
-/

namespace RQ

/-- Modelled from the spec: the five lifecycle states of a job
(`request_queue` is not among the sources; §3 of the spec). -/
inductive JState
  | queued
  | processing
  | completed
  | failed
  | cancelled
deriving DecidableEq, Repr

/-- Terminal states: `COMPLETED`, `FAILED`, `CANCELLED`. -/
def JState.isTerminal : JState → Bool
  | .completed => true
  | .failed => true
  | .cancelled => true
  | _ => false

/-- Outcome of one execution of the work function: a success payload or the
description of a raised exception. -/
inductive WorkOutcome
  | ok (payload : String)
  | err (msg : String)
deriving DecidableEq, Repr

/-- Modelled from the spec: a job record (spec §3); the work outcome is an
error description (raised exception) or a success payload. -/
structure Job where
  jid : Nat
  state : JState
  submittedAt : Nat
  startedAt : Option Nat
  finishedAt : Option Nat
  lastHeartbeatAt : Nat
  result : Option WorkOutcome
deriving DecidableEq, Repr

/-- Modelled from the spec: construction-time configuration (spec §6). -/
structure QConfig where
  maxConcurrent : Nat
  cooldownPeriod : Nat
  heartbeatTimeout : Nat
  retentionWindow : Nat
deriving DecidableEq, Repr

/-- Modelled from the spec: the shared queue store: jobs in submission order,
the id counter (ids are never reused), and the time of the last dispatch
start (cooldown gate). -/
structure QState where
  cfg : QConfig
  jobs : List Job
  nextId : Nat
  lastDispatchStart : Option Nat
deriving DecidableEq, Repr

/-- The empty queue. -/
def init (cfg : QConfig) : QState :=
  { cfg := cfg, jobs := [], nextId := 0, lastDispatchStart := none }

/-- Number of jobs currently in `PROCESSING`. -/
def processingCount (s : QState) : Nat :=
  (s.jobs.filter (fun j => j.state == .processing)).length

/-- Lookup a job by id (the id-keyed store). -/
def findJob (id : Nat) (jobs : List Job) : Option Job :=
  jobs.find? (fun j => j.jid == id)

/-- Update the (unique) job with the given id. -/
def updateById (id : Nat) (g : Job → Job) : List Job → List Job
  | [] => []
  | j :: rest => if j.jid == id then g j :: rest else j :: updateById id g rest

/-- Modelled from the spec: `submit` (spec §4.1) — fresh id, state `QUEUED`,
`submitted_at = now`, `last_heartbeat_at = now`, appended in submission
order; returns the id. -/
def add_request (s : QState) (now : Nat) : QState × Nat :=
  ({ s with
      jobs := s.jobs ++ [{ jid := s.nextId, state := .queued, submittedAt := now,
                           startedAt := none, finishedAt := none,
                           lastHeartbeatAt := now, result := none }],
      nextId := s.nextId + 1 },
   s.nextId)

/-- Rank of a queued job among currently queued jobs, in submission order. -/
def position (s : QState) (id : Nat) : Option Nat :=
  (s.jobs.filter (fun j => j.state == .queued)).findIdx? (fun j => j.jid == id)

/-- Modelled from the spec: a status snapshot (spec §4.1). -/
structure StatusSnap where
  jid : Nat
  state : JState
  position : Option Nat
  submittedAt : Nat
  startedAt : Option Nat
  finishedAt : Option Nat
deriving DecidableEq, Repr

/-- Modelled from the spec: `get_status` (spec §4.1) — `none` when the id is
unknown (evicted or never existed). -/
def get_request_status (s : QState) (id : Nat) : Option StatusSnap :=
  (findJob id s.jobs).map (fun j =>
    { jid := j.jid, state := j.state,
      position := if j.state == .queued then position s j.jid else none,
      submittedAt := j.submittedAt, startedAt := j.startedAt,
      finishedAt := j.finishedAt })

/-- Modelled from the spec: `get_result` (spec §4.1) — only once terminal. -/
def get_request_result (s : QState) (id : Nat) : Option WorkOutcome :=
  (findJob id s.jobs).bind (fun j => if j.state.isTerminal then j.result else none)

/-- Modelled from the spec: `cancel` (spec §4.4) — succeeds only on a job that
exists and is still `QUEUED`; sets `CANCELLED` and `finished_at = now`. -/
def cancel_request (s : QState) (id : Nat) (now : Nat) : QState × Bool :=
  match findJob id s.jobs with
  | none => (s, false)
  | some j =>
    if j.state == .queued then
      let g := fun x => { x with state := JState.cancelled, finishedAt := some now }
      ({ s with jobs := updateById id g s.jobs }, true)
    else (s, false)

/-- Modelled from the spec: `heartbeat` (spec §4.3) — refresh
`last_heartbeat_at` if the job exists and is not yet terminal. -/
def update_heartbeat (s : QState) (id : Nat) (now : Nat) : QState × Bool :=
  match findJob id s.jobs with
  | none => (s, false)
  | some j =>
    if j.state.isTerminal then (s, false)
    else
      let g := fun x => { x with lastHeartbeatAt := now }
      ({ s with jobs := updateById id g s.jobs }, true)

/-- The cooldown gate (spec §4.2): `now - last_dispatch_start ≥ cooldown`. -/
def cooldownOk (s : QState) (now : Nat) : Bool :=
  match s.lastDispatchStart with
  | none => true
  | some t => s.cfg.cooldownPeriod ≤ now - t

/-- Replace the first (oldest) `QUEUED` job by its `PROCESSING` version
(`started_at = now`): the indivisible test-and-set of spec §5.  Returns the
new job list and the dispatched id, or `none` if nothing is queued. -/
def dispatchFirst (now : Nat) : List Job → Option (List Job × Nat)
  | [] => none
  | j :: rest =>
    if j.state == .queued then
      some ({ j with state := .processing, startedAt := some now } :: rest, j.jid)
    else
      (dispatchFirst now rest).map (fun p => (j :: p.1, p.2))

/-- Modelled from the spec: one wake-up of the dispatch loop (spec §4.2):
if a worker slot is free and the cooldown has elapsed, atomically move the
oldest `QUEUED` job to `PROCESSING` and record the dispatch start. -/
def dispatchStart (s : QState) (now : Nat) : QState × Option Nat :=
  if processingCount s < s.cfg.maxConcurrent && cooldownOk s now then
    match dispatchFirst now s.jobs with
    | none => (s, none)
    | some (jobs, id) =>
      ({ s with jobs := jobs, lastDispatchStart := some now }, some id)
  else (s, none)

/-- Modelled from the spec: completion of a running work function
(spec §4.2): capture the return value (`COMPLETED`) or the raised
exception's description (`FAILED`) into `result`, `finished_at = now`.
Only a job currently in `PROCESSING` can finish. -/
def dispatchFinish (s : QState) (id : Nat) (outcome : WorkOutcome)
    (now : Nat) : QState × Bool :=
  match findJob id s.jobs with
  | none => (s, false)
  | some j =>
    if j.state == .processing then
      let st := match outcome with | .ok _ => JState.completed | .err _ => JState.failed
      let g := fun x => { x with state := st, result := some outcome, finishedAt := some now }
      ({ s with jobs := updateById id g s.jobs }, true)
    else (s, false)

/-- One sweep action on a single job (spec §4.5 step 1): a `QUEUED` job whose
heartbeat is older than the timeout is cancelled. -/
def sweepCancel (cfg : QConfig) (now : Nat) (j : Job) : Job :=
  if j.state == .queued && cfg.heartbeatTimeout < now - j.lastHeartbeatAt then
    { j with state := .cancelled, finishedAt := some now }
  else j

/-- Retention filter (spec §4.5 step 2): keep a job unless it is terminal and
`now - finished_at > retention_window`. -/
def retentionKeep (cfg : QConfig) (now : Nat) (j : Job) : Bool :=
  !(j.state.isTerminal &&
    (match j.finishedAt with
     | some f => cfg.retentionWindow < now - f
     | none => false))

/-- Modelled from the spec: one synchronous sweep pass / `force_cleanup`
(spec §4.5): cancel heartbeat-expired queued jobs, then evict terminal jobs
past the retention window. -/
def force_cleanup (s : QState) (now : Nat) : QState :=
  { s with jobs := ((s.jobs.map (sweepCancel s.cfg now)).filter (retentionKeep s.cfg now)) }

/-- Observable events of a trace: `invoke id` marks the (atomic) dispatch that
hands the job's work function to a worker; `fail id` marks the work function
raising, terminating the job as `FAILED`. -/
inductive QEvent
  | invoke (id : Nat)
  | fail (id : Nat)
deriving DecidableEq, Repr

/-- The atomic operations that can be interleaved by request-handling threads,
the dispatcher loop and the sweeper (spec §5). -/
inductive QOp
  | submit (now : Nat)
  | dispatch (now : Nat)
  | finish (id : Nat) (outcome : WorkOutcome) (now : Nat)
  | heartbeat (id : Nat) (now : Nat)
  | cancel (id : Nat) (now : Nat)
  | cleanup (now : Nat)
  | poll (id : Nat)
  | readResult (id : Nat)
deriving DecidableEq, Repr

/-- One atomic step, with its emitted events. -/
def step (s : QState) (op : QOp) : QState × List QEvent :=
  match op with
  | .submit now => ((add_request s now).1, [])
  | .dispatch now =>
    match dispatchStart s now with
    | (s', none) => (s', [])
    | (s', some id) => (s', [.invoke id])
  | .finish id outcome now =>
    ((dispatchFinish s id outcome now).1,
     match outcome, (dispatchFinish s id outcome now).2 with
     | .err _, true => [.fail id]
     | _, _ => [])
  | .heartbeat id now => ((update_heartbeat s id now).1, [])
  | .cancel id now => ((cancel_request s id now).1, [])
  | .cleanup now => (force_cleanup s now, [])
  | .poll _ => (s, [])
  | .readResult _ => (s, [])

/-- Run a trace of atomic operations, accumulating events. -/
def run (s : QState) : List QOp → QState × List QEvent
  | [] => (s, [])
  | op :: ops =>
    let p := step s op
    let q := run p.1 ops
    (q.1, p.2 ++ q.2)

/-- Number of `invoke id` events in an event list. -/
def countInvoke : List QEvent → Nat → Nat
  | [], _ => 0
  | .invoke j :: es, id => (if j = id then 1 else 0) + countInvoke es id
  | .fail _ :: es, id => countInvoke es id

/-- Number of `fail id` events in an event list. -/
def countFail : List QEvent → Nat → Nat
  | [], _ => 0
  | .invoke _ :: es, id => countFail es id
  | .fail j :: es, id => (if j = id then 1 else 0) + countFail es id

end RQ

namespace RQ

/-- The ids of a job list, in order. -/
def jids (l : List Job) : List Nat := l.map (fun j => j.jid)

/-- Well-formedness of the store: ids strictly increase along the submission
order (hence are distinct), and every id is below the id counter. -/
def WF (s : QState) : Prop :=
  (jids s.jobs).Pairwise (· < ·) ∧ ∀ j ∈ s.jobs, j.jid < s.nextId

theorem mem_jids {l : List Job} {n : Nat} : n ∈ jids l ↔ ∃ j ∈ l, j.jid = n := by
  simp [jids]

theorem jids_append (l₁ l₂ : List Job) : jids (l₁ ++ l₂) = jids l₁ ++ jids l₂ := by
  simp [jids]

theorem updateById_jids (id : Nat) (g : Job → Job) (hg : ∀ x, (g x).jid = x.jid) :
    ∀ l, jids (updateById id g l) = jids l := by
  intro l
  induction l with
  | nil => rfl
  | cons j rest ih =>
    by_cases h : j.jid = id
    · simp [updateById, h, jids, hg]
    · simp only [updateById, beq_iff_eq, h, if_false, jids, List.map_cons]
      exact congrArg _ ih

theorem mem_updateById {id : Nat} {g : Job → Job} {l : List Job} {j' : Job}
    (h : j' ∈ updateById id g l) : j' ∈ l ∨ ∃ x ∈ l, x.jid = id ∧ j' = g x := by
  induction l with
  | nil => simp [updateById] at h
  | cons j rest ih =>
    by_cases hj : j.jid = id
    · simp only [updateById, beq_iff_eq, hj, if_true, List.mem_cons] at h
      rcases h with h | h
      · exact Or.inr ⟨j, List.mem_cons_self _ _, hj, h⟩
      · exact Or.inl (List.mem_cons_of_mem _ h)
    · simp only [updateById, beq_iff_eq, hj, if_false, List.mem_cons] at h
      rcases h with h | h
      · exact Or.inl (h ▸ List.mem_cons_self _ _)
      · rcases ih h with h' | ⟨x, hx, hxid, hxe⟩
        · exact Or.inl (List.mem_cons_of_mem _ h')
        · exact Or.inr ⟨x, List.mem_cons_of_mem _ hx, hxid, hxe⟩

theorem updateById_of_jid_eq {id : Nat} {g : Job → Job} {l : List Job} {j' : Job}
    (hd : (jids l).Nodup) (hg : ∀ x, (g x).jid = x.jid)
    (h : j' ∈ updateById id g l) (hid : j'.jid = id) :
    ∃ x ∈ l, x.jid = id ∧ j' = g x := by
  induction l with
  | nil => simp [updateById] at h
  | cons j rest ih =>
    by_cases hj : j.jid = id
    · simp only [updateById, beq_iff_eq, hj, if_true, List.mem_cons] at h
      rcases h with h | h
      · exact ⟨j, List.mem_cons_self _ _, hj, h⟩
      · exfalso
        have : j'.jid ∈ jids rest := mem_jids.mpr ⟨j', h, rfl⟩
        have hnd := (List.nodup_cons.mp hd).1
        exact hnd (by rw [hid, ← hj] at this; exact this)
    · simp only [updateById, beq_iff_eq, hj, if_false, List.mem_cons] at h
      rcases h with h | h
      · exact absurd (h ▸ hid) hj
      · rcases ih (List.nodup_cons.mp hd).2 h with ⟨x, hx, hxid, hxe⟩
        exact ⟨x, List.mem_cons_of_mem _ hx, hxid, hxe⟩

theorem length_filter_updateById_le (p : Job → Bool) (id : Nat) (g : Job → Job)
    (hg : ∀ x, p (g x) = true → p x = true) :
    ∀ l : List Job, ((updateById id g l).filter p).length ≤ (l.filter p).length := by
  intro l
  induction l with
  | nil => simp [updateById]
  | cons j rest ih =>
    by_cases hj : j.jid = id
    · simp only [updateById, beq_iff_eq, hj, if_true]
      by_cases hp : p (g j) = true
      · have hpj := hg j hp
        simp [List.filter_cons, hp, hpj]
      · simp only [Bool.not_eq_true] at hp
        by_cases hpj : p j = true <;> simp [List.filter_cons, hp, hpj] <;> omega
    · simp only [updateById, beq_iff_eq, hj, if_false]
      by_cases hpj : p j = true <;> simp [List.filter_cons, hpj] <;> omega

theorem length_filter_map_le (p : Job → Bool) (f : Job → Job)
    (hf : ∀ x, p (f x) = true → p x = true) :
    ∀ l : List Job, ((l.map f).filter p).length ≤ (l.filter p).length := by
  intro l
  induction l with
  | nil => simp
  | cons j rest ih =>
    by_cases hp : p (f j) = true
    · have hpj := hf j hp
      simp [List.filter_cons, hp, hpj]
      omega
    · simp only [Bool.not_eq_true] at hp
      by_cases hpj : p j = true <;> simp [List.filter_cons, hp, hpj] <;> omega

theorem dispatchFirst_spec {now : Nat} :
    ∀ {l l' : List Job} {id : Nat}, dispatchFirst now l = some (l', id) →
    ∃ l₁ j l₂, l = l₁ ++ j :: l₂ ∧ (∀ y ∈ l₁, ¬ y.state = JState.queued) ∧
      j.state = JState.queued ∧ id = j.jid ∧
      l' = l₁ ++ { j with state := JState.processing, startedAt := some now } :: l₂ := by
  intro l
  induction l with
  | nil => intro l' id h; simp [dispatchFirst] at h
  | cons j rest ih =>
    intro l' id h
    by_cases hq : j.state = JState.queued
    · simp only [dispatchFirst, beq_iff_eq, hq, if_true, Option.some.injEq, Prod.mk.injEq] at h
      exact ⟨[], j, rest, by simp, by simp, hq, h.2.symm, by simp [h.1.symm]⟩
    · simp only [dispatchFirst, beq_iff_eq, hq, if_false] at h
      match hrest : dispatchFirst now rest with
      | none => rw [hrest] at h; simp at h
      | some (l'', id') =>
        rw [hrest] at h
        simp only [Option.map_some', Option.some.injEq, Prod.mk.injEq] at h
        rcases ih hrest with ⟨l₁, jq, l₂, hrest_eq, hl₁, hjq, hid, hl''⟩
        refine ⟨j :: l₁, jq, l₂, by simp [hrest_eq], ?_, hjq, h.2 ▸ hid, ?_⟩
        · intro y hy
          rcases List.mem_cons.mp hy with hy | hy
          · exact hy ▸ hq
          · exact hl₁ y hy
        · rw [← h.1, hl'']
          simp

theorem countInvoke_append (es₁ es₂ : List QEvent) (id : Nat) :
    countInvoke (es₁ ++ es₂) id = countInvoke es₁ id + countInvoke es₂ id := by
  induction es₁ with
  | nil => simp [countInvoke]
  | cons e rest ih =>
    cases e <;> simp [countInvoke, ih] <;> omega

theorem countFail_append (es₁ es₂ : List QEvent) (id : Nat) :
    countFail (es₁ ++ es₂) id = countFail es₁ id + countFail es₂ id := by
  induction es₁ with
  | nil => simp [countFail]
  | cons e rest ih =>
    cases e <;> simp [countFail, ih] <;> omega

end RQ

namespace RQ

theorem findJob_some {id : Nat} {l : List Job} {j : Job} (h : findJob id l = some j) :
    j ∈ l ∧ j.jid = id := by
  have hm := List.mem_of_find?_eq_some h
  have hp := List.find?_some h
  exact ⟨hm, by simpa using hp⟩

/-- The main inductive invariant of a queue execution: well-formedness of the
store, the concurrency bound, and at-most-one dispatch / at-most-one failure
per job id (the latter tied to the job's current state). -/
def Inv (s : QState) (es : List QEvent) : Prop :=
  WF s ∧
  processingCount s ≤ s.cfg.maxConcurrent ∧
  (∀ id, countInvoke es id ≤ 1) ∧
  (∀ id, 1 ≤ countInvoke es id →
     id < s.nextId ∧ ∀ j ∈ s.jobs, j.jid = id → j.state ≠ JState.queued) ∧
  (∀ id, countFail es id ≤ 1) ∧
  (∀ id, 1 ≤ countFail es id →
     id < s.nextId ∧ ∀ j ∈ s.jobs, j.jid = id →
       j.state ≠ JState.queued ∧ j.state ≠ JState.processing)

theorem inv_submit {s : QState} {es : List QEvent} (now : Nat) (h : Inv s es) :
    Inv (add_request s now).1 es := by
  obtain ⟨⟨hpw, hlt⟩, hproc, hi1, hi2, hf1, hf2⟩ := h
  refine ⟨⟨?_, ?_⟩, ?_, hi1, ?_, hf1, ?_⟩
  · simp only [add_request, jids_append]
    rw [List.pairwise_append]
    refine ⟨hpw, by simp [jids], ?_⟩
    intro a ha b hb
    rcases mem_jids.mp ha with ⟨j, hj, rfl⟩
    have hb' : b = s.nextId := by simpa [jids] using hb
    exact hb' ▸ hlt j hj
  · intro j hj
    simp only [add_request, List.mem_append, List.mem_singleton] at hj
    rcases hj with hj | rfl
    · exact Nat.lt_succ_of_lt (hlt j hj)
    · exact Nat.lt_succ_self _
  · simpa [add_request, processingCount, List.filter_append] using hproc
  · intro id hid
    obtain ⟨hlt', hjobs⟩ := hi2 id hid
    refine ⟨Nat.lt_succ_of_lt hlt', ?_⟩
    intro j hj hjid
    simp only [add_request, List.mem_append, List.mem_singleton] at hj
    rcases hj with hj | rfl
    · exact hjobs j hj hjid
    · exact absurd hjid (by simp; omega)
  · intro id hid
    obtain ⟨hlt', hjobs⟩ := hf2 id hid
    refine ⟨Nat.lt_succ_of_lt hlt', ?_⟩
    intro j hj hjid
    simp only [add_request, List.mem_append, List.mem_singleton] at hj
    rcases hj with hj | rfl
    · exact hjobs j hj hjid
    · exact absurd hjid (by simp; omega)

theorem inv_update_of_jidkeep {s : QState} {es : List QEvent} {id : Nat} {g : Job → Job}
    (hg : ∀ x, (g x).jid = x.jid)
    (hq : ∀ x, (g x).state = JState.queued → x.state = JState.queued)
    (hpr : ∀ x, (g x).state = JState.processing → x.state = JState.processing)
    (h : Inv s es) :
    Inv { s with jobs := updateById id g s.jobs } es := by
  obtain ⟨⟨hpw, hlt⟩, hproc, hi1, hi2, hf1, hf2⟩ := h
  refine ⟨⟨?_, ?_⟩, ?_, hi1, ?_, hf1, ?_⟩
  · simpa [updateById_jids id g hg] using hpw
  · intro j hj
    rcases mem_updateById hj with hj' | ⟨x, hx, _, rfl⟩
    · exact hlt j hj'
    · exact hg x ▸ hlt x hx
  · refine le_trans ?_ hproc
    simp only [processingCount]
    refine length_filter_updateById_le _ id g ?_ s.jobs
    intro x hx
    simp only [beq_iff_eq] at hx ⊢
    exact hpr x hx
  · intro i hi
    obtain ⟨hlt', hjobs⟩ := hi2 i hi
    refine ⟨hlt', ?_⟩
    intro j hj hjid hst
    rcases mem_updateById hj with hj' | ⟨x, hx, _, rfl⟩
    · exact hjobs j hj' hjid hst
    · exact hjobs x hx (by rw [← hg x]; exact hjid) (hq x hst)
  · intro i hi
    obtain ⟨hlt', hjobs⟩ := hf2 i hi
    refine ⟨hlt', ?_⟩
    intro j hj hjid
    rcases mem_updateById hj with hj' | ⟨x, hx, _, rfl⟩
    · exact hjobs j hj' hjid
    · constructor
      · intro hst
        exact (hjobs x hx (by rw [← hg x]; exact hjid)).1 (hq x hst)
      · intro hst
        exact (hjobs x hx (by rw [← hg x]; exact hjid)).2 (hpr x hst)

theorem inv_heartbeat {s : QState} {es : List QEvent} (id now : Nat) (h : Inv s es) :
    Inv (update_heartbeat s id now).1 es := by
  unfold update_heartbeat
  match hfind : findJob id s.jobs with
  | none => exact h
  | some j =>
    by_cases ht : j.state.isTerminal
    · simp [ht, h]
    · simp only [ht, Bool.false_eq_true, if_false]
      exact inv_update_of_jidkeep (by intro x; rfl) (by intro x hx; exact hx)
        (by intro x hx; exact hx) h

theorem inv_cancel {s : QState} {es : List QEvent} (id now : Nat) (h : Inv s es) :
    Inv (cancel_request s id now).1 es := by
  unfold cancel_request
  match hfind : findJob id s.jobs with
  | none => exact h
  | some j =>
    by_cases hq : j.state = JState.queued
    · simp only [hq, beq_self_eq_true, if_true]
      exact inv_update_of_jidkeep (by intro x; rfl) (by intro x hx; simp at hx)
        (by intro x hx; simp at hx) h
    · simp [hq, h]

theorem inv_finish {s : QState} {es : List QEvent} (id : Nat) (outcome : WorkOutcome)
    (now : Nat) (h : Inv s es) :
    Inv (step s (.finish id outcome now)).1 (es ++ (step s (.finish id outcome now)).2) := by
  have hstate : (step s (.finish id outcome now)).1 = (dispatchFinish s id outcome now).1 := rfl
  unfold dispatchFinish at hstate
  match hfind : findJob id s.jobs with
  | none =>
    have hev : (step s (.finish id outcome now)).2 = [] := by
      cases outcome <;> simp [step, dispatchFinish, hfind]
    rw [hev]
    simp only [hfind] at hstate
    rw [hstate]
    simpa using h
  | some j =>
    obtain ⟨hmem, hjid⟩ := findJob_some hfind
    by_cases hp : j.state = JState.processing
    · simp only [hfind, hp, beq_self_eq_true, if_true] at hstate
      obtain ⟨⟨hpw, hlt⟩, hproc, hi1, hi2, hf1, hf2⟩ := h
      have hnd : (jids s.jobs).Nodup := hpw.imp (fun hab => Nat.ne_of_lt hab)
      cases outcome with
      | ok payload =>
        have hev : (step s (.finish id (.ok payload) now)).2 = [] := by
          simp [step, dispatchFinish, hfind, hp]
        rw [hev, List.append_nil, hstate]
        refine inv_update_of_jidkeep (by intro x; rfl) (by intro x hx; simp at hx)
          (by intro x hx; simp at hx) ⟨⟨hpw, hlt⟩, hproc, hi1, hi2, hf1, hf2⟩
      | err msg =>
        have hev : (step s (.finish id (.err msg) now)).2 = [QEvent.fail id] := by
          simp [step, dispatchFinish, hfind, hp]
        rw [hev, hstate]
        have hcf0 : countFail es id = 0 := by
          by_contra hne
          have h1 : 1 ≤ countFail es id := Nat.one_le_iff_ne_zero.mpr hne
          exact (hf2 id h1).2 j hmem hjid |>.2 hp
        set g := fun x : Job =>
          { x with state := JState.failed, result := some (WorkOutcome.err msg),
                   finishedAt := some now } with hgdef
        have hg : ∀ x, (g x).jid = x.jid := by intro x; rfl
        refine ⟨⟨?_, ?_⟩, ?_, ?_, ?_, ?_, ?_⟩
        · simpa [updateById_jids id g hg] using hpw
        · intro j' hj'
          rcases mem_updateById hj' with hj'' | ⟨x, hx, _, rfl⟩
          · exact hlt j' hj''
          · exact hg x ▸ hlt x hx
        · refine le_trans ?_ hproc
          simp only [processingCount]
          refine length_filter_updateById_le _ id g ?_ s.jobs
          intro x hx
          simp [hgdef] at hx
        · intro i
          rw [countInvoke_append]
          have : countInvoke [QEvent.fail id] i = 0 := by simp [countInvoke]
          rw [this, Nat.add_zero]
          exact hi1 i
        · intro i hi
          rw [countInvoke_append] at hi
          have hz : countInvoke [QEvent.fail id] i = 0 := by simp [countInvoke]
          rw [hz, Nat.add_zero] at hi
          obtain ⟨hlt', hjobs⟩ := hi2 i hi
          refine ⟨hlt', ?_⟩
          intro j' hj' hjid' hst
          rcases mem_updateById hj' with hj'' | ⟨x, hx, _, rfl⟩
          · exact hjobs j' hj'' hjid' hst
          · simp [hgdef] at hst
        · intro i
          rw [countFail_append]
          by_cases hii : i = id
          · subst hii
            simp [countFail, hcf0]
          · have : countFail [QEvent.fail id] i = 0 := by simp [countFail, Ne.symm hii]
            rw [this, Nat.add_zero]
            exact hf1 i
        · intro i hi
          rw [countFail_append] at hi
          by_cases hii : i = id
          · subst hii
            refine ⟨hjid ▸ hlt j hmem, ?_⟩
            intro j' hj' hjid'
            rcases updateById_of_jid_eq hnd hg hj' hjid' with ⟨x, hx, _, rfl⟩
            constructor <;> simp [hgdef]
          · have hz : countFail [QEvent.fail id] i = 0 := by simp [countFail, Ne.symm hii]
            rw [hz, Nat.add_zero] at hi
            obtain ⟨hlt', hjobs⟩ := hf2 i hi
            refine ⟨hlt', ?_⟩
            intro j' hj' hjid'
            rcases mem_updateById hj' with hj'' | ⟨x, hx, hxid, rfl⟩
            · exact hjobs j' hj'' hjid'
            · exact absurd (by rw [hg x] at hjid'; rw [← hjid', hxid]) hii
    · have hev : (step s (.finish id outcome now)).2 = [] := by
        cases outcome <;> simp [step, dispatchFinish, hfind, hp]
      rw [hev]
      simp only [hfind] at hstate
      have : (j.state == JState.processing) = false := by simp [hp]
      simp only [this, Bool.false_eq_true, if_false] at hstate
      rw [hstate]
      simpa using h

end RQ

namespace RQ

theorem inv_dispatch {s : QState} {es : List QEvent} (now : Nat) (h : Inv s es) :
    Inv (step s (.dispatch now)).1 (es ++ (step s (.dispatch now)).2) := by
  obtain ⟨⟨hpw, hlt⟩, hproc, hi1, hi2, hf1, hf2⟩ := h
  by_cases hgate : (processingCount s < s.cfg.maxConcurrent && cooldownOk s now) = true
  case neg =>
    have hds : dispatchStart s now = (s, none) := by simp [dispatchStart, hgate]
    simp only [step, hds, List.append_nil]
    exact ⟨⟨hpw, hlt⟩, hproc, hi1, hi2, hf1, hf2⟩
  case pos =>
    match hdf : dispatchFirst now s.jobs with
    | none =>
      have hds : dispatchStart s now = (s, none) := by simp [dispatchStart, hgate, hdf]
      simp only [step, hds, List.append_nil]
      exact ⟨⟨hpw, hlt⟩, hproc, hi1, hi2, hf1, hf2⟩
    | some (jobs', selId) =>
      have hds : dispatchStart s now =
          ({ s with jobs := jobs', lastDispatchStart := some now }, some selId) := by
        simp [dispatchStart, hgate, hdf]
      have hstate : (step s (.dispatch now)).1 =
          { s with jobs := jobs', lastDispatchStart := some now } := by
        simp [step, hds]
      have hev : (step s (.dispatch now)).2 = [QEvent.invoke selId] := by
        simp [step, hds]
      rw [hstate, hev]
      obtain ⟨l₁, j, l₂, hldecomp, hl₁, hjq, hidsel, hl'⟩ := dispatchFirst_spec hdf
      simp only [Bool.and_eq_true, decide_eq_true_eq] at hgate
      obtain ⟨hcnt, _⟩ := hgate
      have hm_j : j ∈ s.jobs := by rw [hldecomp]; simp
      have hjids : jids jobs' = jids s.jobs := by
        rw [hl', hldecomp]
        simp [jids_append, jids]
      have hpwdec : ((jids l₁) ++ j.jid :: jids l₂).Pairwise (· < ·) := by
        have heq : jids (l₁ ++ j :: l₂) = jids l₁ ++ j.jid :: jids l₂ := by
          simp [jids]
        rw [← heq, ← hldecomp]
        exact hpw
      have hne₁ : ∀ y ∈ l₁, y.jid ≠ j.jid := by
        intro y hy
        have := (List.pairwise_append.mp hpwdec).2.2 y.jid (mem_jids.mpr ⟨y, hy, rfl⟩)
          j.jid (by simp)
        omega
      have hne₂ : ∀ y ∈ l₂, y.jid ≠ j.jid := by
        intro y hy
        have hp2 := (List.pairwise_append.mp hpwdec).2.1
        have := (List.pairwise_cons.mp hp2).1 y.jid (mem_jids.mpr ⟨y, hy, rfl⟩)
        omega
      have hmem' : ∀ j' ∈ jobs', j' ∈ l₁ ∨
          j' = { j with state := JState.processing, startedAt := some now } ∨ j' ∈ l₂ := by
        intro j' hj'
        rw [hl'] at hj'
        simpa using hj'
      have hinv0 : countInvoke es selId = 0 := by
        by_contra hne
        have h1 : 1 ≤ countInvoke es selId := Nat.one_le_iff_ne_zero.mpr hne
        exact (hi2 selId h1).2 j hm_j hidsel.symm hjq
      have hci : ∀ i, countInvoke (es ++ [QEvent.invoke selId]) i =
          countInvoke es i + (if selId = i then 1 else 0) := by
        intro i
        rw [countInvoke_append]
        simp [countInvoke]
      have hcf : ∀ i, countFail (es ++ [QEvent.invoke selId]) i = countFail es i := by
        intro i
        rw [countFail_append]
        simp [countFail]
      have hpc : processingCount { s with jobs := jobs', lastDispatchStart := some now } =
          processingCount s + 1 := by
        simp [processingCount, hl', hldecomp, List.filter_append, List.filter_cons, hjq]
        omega
      refine ⟨⟨?_, ?_⟩, ?_, ?_, ?_, ?_, ?_⟩
      · simpa [hjids] using hpw
      · intro j' hj'
        rcases hmem' j' hj' with hc | hc | hc
        · exact hlt j' (by rw [hldecomp]; simp [hc])
        · rw [hc]
          exact hlt j hm_j
        · exact hlt j' (by rw [hldecomp]; simp [hc])
      · rw [hpc]
        show processingCount s + 1 ≤ s.cfg.maxConcurrent
        omega
      · intro i
        rw [hci i]
        by_cases hii : selId = i
        · subst hii
          rw [hinv0]
          simp
        · simp only [hii, if_false, Nat.add_zero]
          exact hi1 i
      · intro i hi
        rw [hci i] at hi
        by_cases hii : selId = i
        · subst hii
          refine ⟨hidsel ▸ hlt j hm_j, ?_⟩
          intro j' hj' hjid'
          rcases hmem' j' hj' with hc | hc | hc
          · exact absurd (hjid'.trans hidsel) (hne₁ j' hc)
          · rw [hc]
            simp
          · exact absurd (hjid'.trans hidsel) (hne₂ j' hc)
        · simp only [hii, if_false, Nat.add_zero] at hi
          obtain ⟨hlt', hjobs⟩ := hi2 i hi
          refine ⟨hlt', ?_⟩
          intro j' hj' hjid'
          rcases hmem' j' hj' with hc | hc | hc
          · exact hjobs j' (by rw [hldecomp]; simp [hc]) hjid'
          · exfalso
            apply hii
            rw [hidsel, ← hjid', hc]
          · exact hjobs j' (by rw [hldecomp]; simp [hc]) hjid'
      · intro i
        rw [hcf i]
        exact hf1 i
      · intro i hi
        rw [hcf i] at hi
        obtain ⟨hlt', hjobs⟩ := hf2 i hi
        have hine : i ≠ selId := by
          intro hii
          subst hii
          exact (hjobs j hm_j hidsel.symm).1 hjq
        refine ⟨hlt', ?_⟩
        intro j' hj' hjid'
        rcases hmem' j' hj' with hc | hc | hc
        · exact hjobs j' (by rw [hldecomp]; simp [hc]) hjid'
        · exfalso
          apply hine
          rw [hidsel, ← hjid', hc]
        · exact hjobs j' (by rw [hldecomp]; simp [hc]) hjid'

theorem sweepCancel_jid (c : QConfig) (now : Nat) (x : Job) :
    (sweepCancel c now x).jid = x.jid := by
  simp only [sweepCancel]
  split <;> rfl

theorem sweepCancel_of_not_queued {c : QConfig} {now : Nat} {x : Job}
    (hx : ¬ x.state = JState.queued) : sweepCancel c now x = x := by
  simp only [sweepCancel]
  rw [if_neg]
  simp [hx]

theorem sweepCancel_state (c : QConfig) (now : Nat) (x : Job) :
    (sweepCancel c now x).state = x.state ∨
    ((sweepCancel c now x).state = JState.cancelled ∧ x.state = JState.queued) := by
  simp only [sweepCancel]
  split
  case isTrue hcond =>
    simp only [Bool.and_eq_true, beq_iff_eq] at hcond
    exact Or.inr ⟨rfl, hcond.1⟩
  case isFalse => exact Or.inl rfl

theorem inv_cleanup {s : QState} {es : List QEvent} (now : Nat) (h : Inv s es) :
    Inv (force_cleanup s now) es := by
  obtain ⟨⟨hpw, hlt⟩, hproc, hi1, hi2, hf1, hf2⟩ := h
  have hjids : jids (s.jobs.map (sweepCancel s.cfg now)) = jids s.jobs := by
    simp only [jids, List.map_map]
    exact List.map_congr_left (fun a _ => sweepCancel_jid s.cfg now a)
  have hmem' : ∀ j' ∈ (s.jobs.map (sweepCancel s.cfg now)).filter (retentionKeep s.cfg now),
      ∃ x ∈ s.jobs, j' = sweepCancel s.cfg now x := by
    intro j' hj'
    have := List.mem_of_mem_filter hj'
    rcases List.mem_map.mp this with ⟨x, hx, hxe⟩
    exact ⟨x, hx, hxe.symm⟩
  refine ⟨⟨?_, ?_⟩, ?_, hi1, ?_, hf1, ?_⟩
  · have hsub : List.Sublist
        (jids ((s.jobs.map (sweepCancel s.cfg now)).filter (retentionKeep s.cfg now)))
        (jids (s.jobs.map (sweepCancel s.cfg now))) :=
      List.Sublist.map _ (List.filter_sublist _)
    rw [hjids] at hsub
    exact hpw.sublist hsub
  · intro j' hj'
    rcases hmem' j' hj' with ⟨x, hx, rfl⟩
    rw [sweepCancel_jid]
    exact hlt x hx
  · refine le_trans ?_ hproc
    simp only [force_cleanup, processingCount]
    have hs1 : List.Sublist
        (((s.jobs.map (sweepCancel s.cfg now)).filter
          (retentionKeep s.cfg now)).filter (fun j => j.state == JState.processing))
        ((s.jobs.map (sweepCancel s.cfg now)).filter (fun j => j.state == JState.processing)) :=
      List.Sublist.filter _ (List.filter_sublist _)
    refine le_trans hs1.length_le ?_
    refine length_filter_map_le _ _ ?_ s.jobs
    intro x hx
    rcases sweepCancel_state s.cfg now x with hc | ⟨hc, _⟩
    · rw [← hc]
      exact hx
    · rw [hc] at hx
      simp at hx
  · intro i hi
    obtain ⟨hlt', hjobs⟩ := hi2 i hi
    refine ⟨hlt', ?_⟩
    intro j' hj' hjid' hst
    rcases hmem' j' hj' with ⟨x, hx, rfl⟩
    rw [sweepCancel_jid] at hjid'
    have hxq : ¬ x.state = JState.queued := hjobs x hx hjid'
    rw [sweepCancel_of_not_queued hxq] at hst
    exact hxq hst
  · intro i hi
    obtain ⟨hlt', hjobs⟩ := hf2 i hi
    refine ⟨hlt', ?_⟩
    intro j' hj' hjid'
    rcases hmem' j' hj' with ⟨x, hx, rfl⟩
    rw [sweepCancel_jid] at hjid'
    have hxq : ¬ x.state = JState.queued := (hjobs x hx hjid').1
    rw [sweepCancel_of_not_queued hxq]
    exact hjobs x hx hjid'

theorem inv_step {s : QState} {es : List QEvent} (op : QOp) (h : Inv s es) :
    Inv (step s op).1 (es ++ (step s op).2) := by
  cases op with
  | submit now => simpa [step] using inv_submit now h
  | dispatch now => exact inv_dispatch now h
  | finish id outcome now => exact inv_finish id outcome now h
  | heartbeat id now => simpa [step] using inv_heartbeat id now h
  | cancel id now => simpa [step] using inv_cancel id now h
  | cleanup now => simpa [step] using inv_cleanup now h
  | poll id => simpa [step] using h
  | readResult id => simpa [step] using h

theorem inv_run : ∀ (ops : List QOp) {s : QState} {es : List QEvent}, Inv s es →
    Inv (run s ops).1 (es ++ (run s ops).2) := by
  intro ops
  induction ops with
  | nil => intro s es h; simpa [run] using h
  | cons op rest ih =>
    intro s es h
    have h2 := ih (inv_step op h)
    simpa [run, List.append_assoc] using h2

theorem inv_init (cfg : QConfig) : Inv (init cfg) [] := by
  refine ⟨⟨by simp [jids, init], by simp [init]⟩, by simp [processingCount, init], ?_, ?_, ?_, ?_⟩
  · intro i
    simp [countInvoke]
  · intro i hi
    simp [countInvoke] at hi
  · intro i
    simp [countFail]
  · intro i hi
    simp [countFail] at hi

theorem inv_reachable (cfg : QConfig) (ops : List QOp) :
    Inv (run (init cfg) ops).1 (run (init cfg) ops).2 := by
  simpa using inv_run ops (inv_init cfg)

end RQ

namespace RQ

theorem one_le_countInvoke_of_mem {es : List QEvent} {id : Nat}
    (h : QEvent.invoke id ∈ es) : 1 ≤ countInvoke es id := by
  induction es with
  | nil => simp at h
  | cons e rest ih =>
    rcases List.mem_cons.mp h with he | he
    · rw [← he]
      simp [countInvoke]
    · cases e <;> simp [countInvoke] <;> [skip; exact ih he]
      rename_i k
      by_cases hk : k = id
      · simp [hk]
      · simpa [hk] using ih he

theorem eq_of_jid_eq : ∀ {l : List Job}, (jids l).Nodup →
    ∀ {x j : Job}, x ∈ l → j ∈ l → x.jid = j.jid → x = j := by
  intro l
  induction l with
  | nil => intro _ x j hx; simp at hx
  | cons h0 rest ih =>
    intro hnd x j hx hj heq
    have hnd' : (∀ y ∈ rest, ¬ y.jid = h0.jid) ∧ (jids rest).Nodup := by
      simpa [jids, List.nodup_cons] using hnd
    rcases List.mem_cons.mp hx with hx' | hx' <;> rcases List.mem_cons.mp hj with hj' | hj'
    · rw [hx', hj']
    · exfalso
      exact hnd'.1 j hj' (by rw [← heq, hx'])
    · exfalso
      exact hnd'.1 x hx' (by rw [heq, hj'])
    · exact ih hnd'.2 hx' hj' heq

theorem nodup_jids_of_pairwise {l : List Job} (h : (jids l).Pairwise (· < ·)) :
    (jids l).Nodup := h.imp (fun hab => Nat.ne_of_lt hab)

theorem findJob_eq_some_of_mem : ∀ {l : List Job}, (jids l).Nodup →
    ∀ {j : Job} {id : Nat}, j ∈ l → j.jid = id → findJob id l = some j := by
  intro l
  induction l with
  | nil => intro _ j id hj; simp at hj
  | cons h0 rest ih =>
    intro hnd j id hj hid
    have hnd' : (∀ y ∈ rest, ¬ y.jid = h0.jid) ∧ (jids rest).Nodup := by
      simpa [jids, List.nodup_cons] using hnd
    rcases List.mem_cons.mp hj with hj' | hj'
    · rw [hj'] at hid ⊢
      simp [findJob, List.find?_cons, hid]
    · have hne : ¬ h0.jid = id := by
        intro hc
        exact hnd'.1 j hj' (by rw [hid, hc])
      have hstep := ih hnd'.2 hj' hid
      simp only [findJob] at hstep ⊢
      rw [List.find?_cons_of_neg _ (by simp [hne])]
      exact hstep

/-- The per-step forward transition relation on job states: unchanged, or
`QUEUED → PROCESSING`, `QUEUED → CANCELLED`, `PROCESSING → COMPLETED`,
`PROCESSING → FAILED`. -/
def stepOk (a b : JState) : Prop :=
  a = b ∨ (a = JState.queued ∧ (b = JState.processing ∨ b = JState.cancelled)) ∨
    (a = JState.processing ∧ (b = JState.completed ∨ b = JState.failed))

theorem updateById_state_forward {s : QState} (hwf : WF s) {id : Nat} {g : Job → Job}
    (hg : ∀ x, (g x).jid = x.jid)
    (hok : ∀ x ∈ s.jobs, x.jid = id → stepOk x.state (g x).state) :
    ∀ j ∈ s.jobs, ∀ j' ∈ updateById id g s.jobs, j.jid = j'.jid → stepOk j.state j'.state := by
  have hnd := nodup_jids_of_pairwise hwf.1
  intro j hj j' hj' heq
  rcases mem_updateById hj' with hc | ⟨x, hx, hxid, rfl⟩
  · rw [eq_of_jid_eq hnd hj hc heq]
    exact Or.inl rfl
  · have hxj : x = j := eq_of_jid_eq hnd hx hj (by rw [heq, hg x])
    rw [← hxj]
    exact hok x hx hxid

theorem step_state_forward {s : QState} (hwf : WF s) (op : QOp) :
    ∀ j ∈ s.jobs, ∀ j' ∈ (step s op).1.jobs, j.jid = j'.jid → stepOk j.state j'.state := by
  have hnd := nodup_jids_of_pairwise hwf.1
  cases op with
  | submit now =>
    intro j hj j' hj' heq
    simp only [step, add_request, List.mem_append, List.mem_singleton] at hj'
    rcases hj' with hj' | rfl
    · rw [eq_of_jid_eq hnd hj hj' heq]
      exact Or.inl rfl
    · exfalso
      have := hwf.2 j hj
      simp at heq
      omega
  | dispatch now =>
    by_cases hgate : (processingCount s < s.cfg.maxConcurrent && cooldownOk s now) = true
    case neg =>
      have hds : dispatchStart s now = (s, none) := by simp [dispatchStart, hgate]
      simp only [step, hds]
      intro j hj j' hj' heq
      rw [eq_of_jid_eq hnd hj hj' heq]
      exact Or.inl rfl
    case pos =>
      match hdf : dispatchFirst now s.jobs with
      | none =>
        have hds : dispatchStart s now = (s, none) := by simp [dispatchStart, hgate, hdf]
        simp only [step, hds]
        intro j hj j' hj' heq
        rw [eq_of_jid_eq hnd hj hj' heq]
        exact Or.inl rfl
      | some (jobs', selId) =>
        have hds : dispatchStart s now =
            ({ s with jobs := jobs', lastDispatchStart := some now }, some selId) := by
          simp [dispatchStart, hgate, hdf]
        simp only [step, hds]
        obtain ⟨l₁, j0, l₂, hldecomp, hl₁, hjq, hidsel, hl'⟩ := dispatchFirst_spec hdf
        intro j hj j' hj' heq
        rw [hl'] at hj'
        simp only [List.mem_append, List.mem_cons] at hj'
        have hm0 : j0 ∈ s.jobs := by rw [hldecomp]; simp
        rcases hj' with hc | hc | hc
        · rw [eq_of_jid_eq hnd hj (by rw [hldecomp]; simp [hc]) heq]
          exact Or.inl rfl
        · have : j = j0 := eq_of_jid_eq hnd hj hm0 (by rw [heq, hc])
          rw [this, hc]
          exact Or.inr (Or.inl ⟨hjq, Or.inl rfl⟩)
        · rw [eq_of_jid_eq hnd hj (by rw [hldecomp]; simp [hc]) heq]
          exact Or.inl rfl
  | finish id outcome now =>
    have hstate : (step s (.finish id outcome now)).1 = (dispatchFinish s id outcome now).1 := rfl
    rw [hstate]
    unfold dispatchFinish
    match hfind : findJob id s.jobs with
    | none =>
      intro j hj j' hj' heq
      rw [eq_of_jid_eq hnd hj hj' heq]
      exact Or.inl rfl
    | some j0 =>
      obtain ⟨hm0, hjid0⟩ := findJob_some hfind
      by_cases hp : j0.state = JState.processing
      · simp only [hp, beq_self_eq_true, if_true]
        refine updateById_state_forward hwf (by intro x; rfl) ?_
        intro x hx hxid
        have : x = j0 := eq_of_jid_eq hnd hx hm0 (by rw [hxid, hjid0])
        rw [this, hp]
        cases outcome <;> exact Or.inr (Or.inr ⟨rfl, by simp⟩)
      · have : (j0.state == JState.processing) = false := by simp [hp]
        simp only [this, Bool.false_eq_true, if_false]
        intro j hj j' hj' heq
        rw [eq_of_jid_eq hnd hj hj' heq]
        exact Or.inl rfl
  | heartbeat id now =>
    have hstate : (step s (.heartbeat id now)).1 = (update_heartbeat s id now).1 := rfl
    rw [hstate]
    unfold update_heartbeat
    match hfind : findJob id s.jobs with
    | none =>
      intro j hj j' hj' heq
      rw [eq_of_jid_eq hnd hj hj' heq]
      exact Or.inl rfl
    | some j0 =>
      by_cases ht : j0.state.isTerminal = true
      · simp only [ht, if_true]
        intro j hj j' hj' heq
        rw [eq_of_jid_eq hnd hj hj' heq]
        exact Or.inl rfl
      · simp only [ht, Bool.false_eq_true, if_false]
        refine updateById_state_forward hwf (by intro x; rfl) ?_
        intro x hx hxid
        exact Or.inl rfl
  | cancel id now =>
    have hstate : (step s (.cancel id now)).1 = (cancel_request s id now).1 := rfl
    rw [hstate]
    unfold cancel_request
    match hfind : findJob id s.jobs with
    | none =>
      intro j hj j' hj' heq
      rw [eq_of_jid_eq hnd hj hj' heq]
      exact Or.inl rfl
    | some j0 =>
      obtain ⟨hm0, hjid0⟩ := findJob_some hfind
      by_cases hq : j0.state = JState.queued
      · simp only [hq, beq_self_eq_true, if_true]
        refine updateById_state_forward hwf (by intro x; rfl) ?_
        intro x hx hxid
        have : x = j0 := eq_of_jid_eq hnd hx hm0 (by rw [hxid, hjid0])
        rw [this, hq]
        exact Or.inr (Or.inl ⟨rfl, Or.inr rfl⟩)
      · have : (j0.state == JState.queued) = false := by simp [hq]
        simp only [this, Bool.false_eq_true, if_false]
        intro j hj j' hj' heq
        rw [eq_of_jid_eq hnd hj hj' heq]
        exact Or.inl rfl
  | cleanup now =>
    intro j hj j' hj' heq
    simp only [step, force_cleanup] at hj'
    have hmm := List.mem_of_mem_filter hj'
    rcases List.mem_map.mp hmm with ⟨x, hx, rfl⟩
    have hxj : x = j := eq_of_jid_eq hnd hx hj (by rw [heq, sweepCancel_jid])
    subst hxj
    rcases sweepCancel_state s.cfg now x with hc | ⟨hc, hq⟩
    · rw [hc]
      exact Or.inl rfl
    · rw [hc]
      exact Or.inr (Or.inl ⟨hq, Or.inr rfl⟩)
  | poll id =>
    intro j hj j' hj' heq
    rw [eq_of_jid_eq hnd hj hj' heq]
    exact Or.inl rfl
  | readResult id =>
    intro j hj j' hj' heq
    rw [eq_of_jid_eq hnd hj hj' heq]
    exact Or.inl rfl

end RQ

namespace RQ

theorem exists_jid_mem_of_jids_eq {l l' : List Job} (h : jids l' = jids l) {j : Job}
    (hj : j ∈ l) : ∃ j' ∈ l', j'.jid = j.jid := by
  have : j.jid ∈ jids l' := by
    rw [h]
    exact mem_jids.mpr ⟨j, hj, rfl⟩
  exact mem_jids.mp this

theorem isTerminal_false_of_not {st : JState} (h1 : st ≠ JState.completed)
    (h2 : st ≠ JState.failed) (h3 : st ≠ JState.cancelled) : st.isTerminal = false := by
  cases st <;> simp [JState.isTerminal] at *

theorem step_remove_only_terminal {s : QState} (op : QOp) :
    ∀ j ∈ s.jobs, (∀ j' ∈ (step s op).1.jobs, j'.jid ≠ j.jid) →
      j.state = JState.completed ∨ j.state = JState.failed ∨ j.state = JState.cancelled := by
  intro j hj hnone
  by_contra hterm
  push_neg at hterm
  obtain ⟨hc1, hc2, hc3⟩ := hterm
  cases op with
  | submit now => exact hnone j (by simp [step, add_request, hj]) rfl
  | poll id => exact hnone j hj rfl
  | readResult id => exact hnone j hj rfl
  | dispatch now =>
    by_cases hgate : (processingCount s < s.cfg.maxConcurrent && cooldownOk s now) = true
    case neg =>
      have hds : dispatchStart s now = (s, none) := by simp [dispatchStart, hgate]
      exact hnone j (by simp [step, hds, hj]) rfl
    case pos =>
      match hdf : dispatchFirst now s.jobs with
      | none =>
        have hds : dispatchStart s now = (s, none) := by simp [dispatchStart, hgate, hdf]
        exact hnone j (by simp [step, hds, hj]) rfl
      | some (jobs', selId) =>
        have hds : dispatchStart s now =
            ({ s with jobs := jobs', lastDispatchStart := some now }, some selId) := by
          simp [dispatchStart, hgate, hdf]
        obtain ⟨l₁, j0, l₂, hldecomp, _, hjq, _, hl'⟩ := dispatchFirst_spec hdf
        have hjids : jids jobs' = jids s.jobs := by
          rw [hl', hldecomp]
          simp [jids]
        obtain ⟨j', hj', hjid'⟩ := exists_jid_mem_of_jids_eq hjids hj
        exact hnone j' (by simp [step, hds, hj']) hjid'
  | finish id outcome now =>
    have hstate : (step s (.finish id outcome now)).1 = (dispatchFinish s id outcome now).1 := rfl
    unfold dispatchFinish at hstate
    match hfind : findJob id s.jobs with
    | none =>
      simp only [hfind] at hstate
      exact hnone j (by rw [hstate]; exact hj) rfl
    | some j0 =>
      by_cases hp : j0.state = JState.processing
      · cases outcome with
        | ok payload =>
          simp only [hfind, hp, beq_self_eq_true, if_true] at hstate
          have hjids := updateById_jids id (fun x =>
              { x with state := JState.completed,
                       result := some (WorkOutcome.ok payload), finishedAt := some now })
            (by intro x; rfl) s.jobs
          obtain ⟨j', hj', hjid'⟩ := exists_jid_mem_of_jids_eq hjids hj
          exact hnone j' (by rw [hstate]; exact hj') hjid'
        | err msg =>
          simp only [hfind, hp, beq_self_eq_true, if_true] at hstate
          have hjids := updateById_jids id (fun x =>
              { x with state := JState.failed,
                       result := some (WorkOutcome.err msg), finishedAt := some now })
            (by intro x; rfl) s.jobs
          obtain ⟨j', hj', hjid'⟩ := exists_jid_mem_of_jids_eq hjids hj
          exact hnone j' (by rw [hstate]; exact hj') hjid'
      · have hb : (j0.state == JState.processing) = false := by simp [hp]
        simp only [hfind, hb, Bool.false_eq_true, if_false] at hstate
        exact hnone j (by rw [hstate]; exact hj) rfl
  | heartbeat id now =>
    have hstate : (step s (.heartbeat id now)).1 = (update_heartbeat s id now).1 := rfl
    unfold update_heartbeat at hstate
    match hfind : findJob id s.jobs with
    | none =>
      simp only [hfind] at hstate
      exact hnone j (by rw [hstate]; exact hj) rfl
    | some j0 =>
      by_cases ht : j0.state.isTerminal = true
      · simp only [hfind, ht, if_true] at hstate
        exact hnone j (by rw [hstate]; exact hj) rfl
      · simp only [hfind, ht, Bool.false_eq_true, if_false] at hstate
        have hjids := updateById_jids id (fun x => { x with lastHeartbeatAt := now })
          (by intro x; rfl) s.jobs
        obtain ⟨j', hj', hjid'⟩ := exists_jid_mem_of_jids_eq hjids hj
        exact hnone j' (by rw [hstate]; exact hj') hjid'
  | cancel id now =>
    have hstate : (step s (.cancel id now)).1 = (cancel_request s id now).1 := rfl
    unfold cancel_request at hstate
    match hfind : findJob id s.jobs with
    | none =>
      simp only [hfind] at hstate
      exact hnone j (by rw [hstate]; exact hj) rfl
    | some j0 =>
      by_cases hq : j0.state = JState.queued
      · simp only [hfind, hq, beq_self_eq_true, if_true] at hstate
        have hjids := updateById_jids id
          (fun x => { x with state := JState.cancelled, finishedAt := some now })
          (by intro x; rfl) s.jobs
        obtain ⟨j', hj', hjid'⟩ := exists_jid_mem_of_jids_eq hjids hj
        exact hnone j' (by rw [hstate]; exact hj') hjid'
      · have hb : (j0.state == JState.queued) = false := by simp [hq]
        simp only [hfind, hb, Bool.false_eq_true, if_false] at hstate
        exact hnone j (by rw [hstate]; exact hj) rfl
  | cleanup now =>
    have hkeep : retentionKeep s.cfg now (sweepCancel s.cfg now j) = true := by
      by_cases hcond : (j.state == JState.queued &&
          decide (s.cfg.heartbeatTimeout < now - j.lastHeartbeatAt)) = true
      · have : sweepCancel s.cfg now j =
            { j with state := JState.cancelled, finishedAt := some now } := by
          simp only [sweepCancel]
          rw [if_pos hcond]
        rw [this]
        simp [retentionKeep, JState.isTerminal, Nat.sub_self]
      · have : sweepCancel s.cfg now j = j := by
          simp only [sweepCancel]
          rw [if_neg hcond]
        rw [this]
        simp [retentionKeep, isTerminal_false_of_not hc1 hc2 hc3]
    have hmem : sweepCancel s.cfg now j ∈
        (s.jobs.map (sweepCancel s.cfg now)).filter (retentionKeep s.cfg now) :=
      List.mem_filter.mpr ⟨List.mem_map_of_mem _ hj, hkeep⟩
    exact hnone (sweepCancel s.cfg now j) (by simpa [step, force_cleanup] using hmem)
      (sweepCancel_jid s.cfg now j)

theorem dispatchStart_cfg (s : QState) (now : Nat) : (dispatchStart s now).1.cfg = s.cfg := by
  unfold dispatchStart
  split
  · split <;> rfl
  · rfl

theorem dispatchFinish_cfg (s : QState) (id : Nat) (outcome : WorkOutcome) (now : Nat) :
    (dispatchFinish s id outcome now).1.cfg = s.cfg := by
  unfold dispatchFinish
  split
  · rfl
  · split <;> rfl

theorem update_heartbeat_cfg (s : QState) (id now : Nat) :
    (update_heartbeat s id now).1.cfg = s.cfg := by
  unfold update_heartbeat
  split
  · rfl
  · split <;> rfl

theorem cancel_request_cfg (s : QState) (id now : Nat) :
    (cancel_request s id now).1.cfg = s.cfg := by
  unfold cancel_request
  split
  · rfl
  · split <;> rfl

theorem step_cfg (s : QState) (op : QOp) : (step s op).1.cfg = s.cfg := by
  cases op with
  | submit now => rfl
  | dispatch now =>
    have h := dispatchStart_cfg s now
    rcases hds : dispatchStart s now with ⟨s', o⟩
    rw [hds] at h
    cases o <;> simp only [step, hds] <;> exact h
  | finish id outcome now => exact dispatchFinish_cfg s id outcome now
  | heartbeat id now => exact update_heartbeat_cfg s id now
  | cancel id now => exact cancel_request_cfg s id now
  | cleanup now => rfl
  | poll id => rfl
  | readResult id => rfl

theorem run_cfg : ∀ (ops : List QOp) (s : QState), (run s ops).1.cfg = s.cfg := by
  intro ops
  induction ops with
  | nil => intro s; rfl
  | cons op rest ih =>
    intro s
    show (run (step s op).1 rest).1.cfg = s.cfg
    rw [ih (step s op).1, step_cfg]

end RQ

namespace RQ

/-- C1: in every interleaving of queue operations (submissions, dispatch-loop
wake-ups, completions, concurrent status polling, heartbeats, cancels and
sweeps), a given job id is dispatched — its work function invoked — at most
once, because the QUEUED→PROCESSING transition is one atomic test-and-set
step; and once a dispatch of that id has occurred, the number of invocations
of its work function is exactly one (never zero, never two). -/
theorem at_most_once_dispatch (cfg : QConfig) (ops : List QOp) (id : Nat) :
    countInvoke (run (init cfg) ops).2 id ≤ 1 ∧
    (QEvent.invoke id ∈ (run (init cfg) ops).2 → countInvoke (run (init cfg) ops).2 id = 1) := by
  obtain ⟨_, _, hi1, _, _, _⟩ := inv_reachable cfg ops
  refine ⟨hi1 id, ?_⟩
  intro hmem
  have h1 := one_le_countInvoke_of_mem hmem
  have h2 := hi1 id
  omega

theorem at_most_once_dispatch_witness :
    countInvoke (run (init ⟨1, 0, 90, 300⟩) [QOp.submit 0, QOp.dispatch 1]).2 0 = 1 :=
  (at_most_once_dispatch ⟨1, 0, 90, 300⟩ [QOp.submit 0, QOp.dispatch 1] 0).2 (by decide)

/-- C2: across any single atomic queue operation applied to any reachable
state, a job's state either stays put or moves forward along
QUEUED→PROCESSING→{COMPLETED,FAILED} or QUEUED→CANCELLED (so
PROCESSING→CANCELLED never occurs and no state ever regresses), and a job id
can only disappear from the store when the job is already terminal; hence a
polling client sees monotonically non-decreasing progress until the id
disappears. -/
theorem state_moves_forward (cfg : QConfig) (ops : List QOp) (op : QOp) (id : Nat) :
    (∀ j ∈ (run (init cfg) ops).1.jobs, ∀ j' ∈ (step (run (init cfg) ops).1 op).1.jobs,
       j.jid = id → j'.jid = id → stepOk j.state j'.state) ∧
    (∀ j ∈ (run (init cfg) ops).1.jobs, j.jid = id →
       (∀ j' ∈ (step (run (init cfg) ops).1 op).1.jobs, j'.jid ≠ id) →
       j.state = JState.completed ∨ j.state = JState.failed ∨ j.state = JState.cancelled) := by
  have hwf : WF (run (init cfg) ops).1 := (inv_reachable cfg ops).1
  constructor
  · intro j hj j' hj' hid hid'
    exact step_state_forward hwf op j hj j' hj' (by rw [hid, hid'])
  · intro j hj hid hnone
    refine step_remove_only_terminal op j hj ?_
    intro j' hj' hcon
    exact hnone j' hj' (by rw [hcon, hid])

theorem state_moves_forward_witness : stepOk JState.queued JState.processing := by
  have h := (state_moves_forward ⟨1, 0, 90, 300⟩ [QOp.submit 0] (QOp.dispatch 1) 0).1
    ⟨0, JState.queued, 0, none, none, 0, none⟩ (by decide)
    ⟨0, JState.processing, 0, some 1, none, 0, none⟩ (by decide) rfl rfl
  exact h

/-- C3: whenever the dispatch loop dispatches a job, that job is the oldest
currently `QUEUED` one: every other queued job in the store has a strictly
larger submission id (ids increase with submission time).  In particular jobs
start in submission order, and the cooldown gate — which can only make a
dispatch wake-up do nothing — never reorders dispatches. -/
theorem fifo_dispatch (cfg : QConfig) (ops : List QOp) (now id : Nat)
    (hev : (step (run (init cfg) ops).1 (QOp.dispatch now)).2 = [QEvent.invoke id]) :
    ∀ j ∈ (run (init cfg) ops).1.jobs, j.state = JState.queued → id ≤ j.jid := by
  have hwf : WF (run (init cfg) ops).1 := (inv_reachable cfg ops).1
  by_cases hgate : (processingCount (run (init cfg) ops).1 <
      (run (init cfg) ops).1.cfg.maxConcurrent && cooldownOk (run (init cfg) ops).1 now) = true
  case neg =>
    have hds : dispatchStart (run (init cfg) ops).1 now = ((run (init cfg) ops).1, none) := by
      simp [dispatchStart, hgate]
    simp [step, hds] at hev
  case pos =>
    match hdf : dispatchFirst now (run (init cfg) ops).1.jobs with
    | none =>
      have hds : dispatchStart (run (init cfg) ops).1 now = ((run (init cfg) ops).1, none) := by
        simp [dispatchStart, hgate, hdf]
      simp [step, hds] at hev
    | some (jobs', selId) =>
      have hds : dispatchStart (run (init cfg) ops).1 now =
          ({ (run (init cfg) ops).1 with jobs := jobs', lastDispatchStart := some now },
           some selId) := by
        simp [dispatchStart, hgate, hdf]
      have hsel : selId = id := by
        simp only [step, hds, List.cons.injEq, QEvent.invoke.injEq] at hev
        exact hev.1
      obtain ⟨l₁, j0, l₂, hldecomp, hl₁, hjq, hidsel, _⟩ := dispatchFirst_spec hdf
      have hpwdec : ((jids l₁) ++ j0.jid :: jids l₂).Pairwise (· < ·) := by
        have heq : jids (l₁ ++ j0 :: l₂) = jids l₁ ++ j0.jid :: jids l₂ := by
          simp [jids]
        rw [← heq, ← hldecomp]
        exact hwf.1
      intro j hj hq
      rw [hldecomp] at hj
      rcases List.mem_append.mp hj with hc | hc
      · exact absurd hq (hl₁ j hc)
      · rcases List.mem_cons.mp hc with rfl | hc
        · rw [← hsel, hidsel]
        · have hp2 := (List.pairwise_append.mp hpwdec).2.1
          have hlt := (List.pairwise_cons.mp hp2).1 j.jid (mem_jids.mpr ⟨j, hc, rfl⟩)
          rw [← hsel, hidsel]
          omega

theorem fifo_dispatch_witness :
    1 ≤ (⟨2, JState.queued, 2, none, none, 2, none⟩ : Job).jid :=
  fifo_dispatch ⟨3, 0, 90, 300⟩ [QOp.submit 0, QOp.submit 1, QOp.submit 2, QOp.dispatch 3] 4 1
    (by decide) ⟨2, JState.queued, 2, none, none, 2, none⟩ (by decide) rfl

/-- C4: in every reachable state of the queue, the number of jobs in
`PROCESSING` at once is at most the configured `max_concurrent`; every queue
operation preserves this bound (so e.g. with `max_concurrent = 2` and five
submitted long-running jobs, no reachable state has more than two jobs in
`PROCESSING`). -/
theorem processing_bounded (cfg : QConfig) (ops : List QOp) :
    processingCount (run (init cfg) ops).1 ≤ cfg.maxConcurrent := by
  have h := (inv_reachable cfg ops).2.1
  rw [run_cfg ops (init cfg)] at h
  exact h

/-- C5: `cancel(id)` returns true exactly when the job exists and is still
`QUEUED`; in that case the job is set to `CANCELLED` with
`finished_at = now`, and when it returns false (job `PROCESSING`, terminal,
or unknown) the whole store is left unchanged. -/
theorem cancel_spec (cfg : QConfig) (ops : List QOp) (id now : Nat) :
    ((cancel_request (run (init cfg) ops).1 id now).2 = true ↔
      ∃ j ∈ (run (init cfg) ops).1.jobs, j.jid = id ∧ j.state = JState.queued) ∧
    ((cancel_request (run (init cfg) ops).1 id now).2 = true →
      ∀ j' ∈ (cancel_request (run (init cfg) ops).1 id now).1.jobs, j'.jid = id →
        j'.state = JState.cancelled ∧ j'.finishedAt = some now) ∧
    ((cancel_request (run (init cfg) ops).1 id now).2 = false →
      (cancel_request (run (init cfg) ops).1 id now).1 = (run (init cfg) ops).1) := by
  have hwf : WF (run (init cfg) ops).1 := (inv_reachable cfg ops).1
  have hnd := nodup_jids_of_pairwise hwf.1
  unfold cancel_request
  match hfind : findJob id (run (init cfg) ops).1.jobs with
  | none =>
    refine ⟨⟨by simp, ?_⟩, by simp, by intro _; trivial⟩
    rintro ⟨j, hj, hjid, hq⟩
    rw [findJob_eq_some_of_mem hnd hj hjid] at hfind
    simp at hfind
  | some j0 =>
    obtain ⟨hm0, hjid0⟩ := findJob_some hfind
    by_cases hq : j0.state = JState.queued
    · simp only [hq, beq_self_eq_true, if_true]
      refine ⟨⟨fun _ => ⟨j0, hm0, hjid0, hq⟩, fun _ => by trivial⟩, ?_, by simp⟩
      intro _ j' hj' hjid'
      rcases updateById_of_jid_eq hnd (by intro x; rfl) hj' hjid' with ⟨x, hx, hxid, rfl⟩
      exact ⟨rfl, rfl⟩
    · have hb : (j0.state == JState.queued) = false := by simp [hq]
      simp only [hb, Bool.false_eq_true, if_false]
      refine ⟨⟨by simp, ?_⟩, by simp, by intro _; trivial⟩
      rintro ⟨j, hj, hjid, hqj⟩
      rw [findJob_eq_some_of_mem hnd hj hjid] at hfind
      simp only [Option.some.injEq] at hfind
      rw [hfind] at hqj
      exact hq hqj

theorem cancel_spec_witness :
    (cancel_request (run (init ⟨1, 0, 90, 300⟩) [QOp.submit 0]).1 0 5).2 = true :=
  (cancel_spec ⟨1, 0, 90, 300⟩ [QOp.submit 0] 0 5).1.mpr
    ⟨⟨0, JState.queued, 0, none, none, 0, none⟩, by decide, rfl, rfl⟩

/-- C6: after one synchronous sweep pass (`force_cleanup`) at time `now`,
every job that was `QUEUED` with `now - last_heartbeat_at > heartbeat_timeout`
has been cancelled, and every job that was terminal with
`now - finished_at > retention_window` has been removed from the store
entirely, so `get_status` on its id returns not-found. -/
theorem sweep_spec (cfg : QConfig) (ops : List QOp) (now : Nat) :
    (∀ j ∈ (run (init cfg) ops).1.jobs, j.state = JState.queued →
       cfg.heartbeatTimeout < now - j.lastHeartbeatAt →
       ∀ j' ∈ (force_cleanup (run (init cfg) ops).1 now).jobs, j'.jid = j.jid →
         j'.state = JState.cancelled) ∧
    (∀ j ∈ (run (init cfg) ops).1.jobs, j.state.isTerminal = true →
       ∀ f, j.finishedAt = some f → cfg.retentionWindow < now - f →
       get_request_status (force_cleanup (run (init cfg) ops).1 now) j.jid = none) := by
  have hwf : WF (run (init cfg) ops).1 := (inv_reachable cfg ops).1
  have hnd := nodup_jids_of_pairwise hwf.1
  have hcfg : (run (init cfg) ops).1.cfg = cfg := run_cfg ops (init cfg)
  constructor
  · intro j hj hq hexp j' hj' hjid'
    simp only [force_cleanup] at hj'
    have hmm := List.mem_of_mem_filter hj'
    rcases List.mem_map.mp hmm with ⟨x, hx, rfl⟩
    rw [sweepCancel_jid] at hjid'
    have hxj : x = j := eq_of_jid_eq hnd hx hj hjid'
    subst hxj
    simp only [sweepCancel]
    rw [if_pos]
    simp only [Bool.and_eq_true, beq_iff_eq, decide_eq_true_eq]
    exact ⟨hq, by rw [hcfg]; exact hexp⟩
  · intro j hj hterm f hf hold
    have hnq : ¬ j.state = JState.queued := by
      intro hqj
      rw [hqj] at hterm
      simp [JState.isTerminal] at hterm
    simp only [get_request_status, Option.map_eq_none', findJob, List.find?_eq_none]
    intro y hy
    simp only [force_cleanup] at hy
    have hkeep := (List.mem_filter.mp hy).2
    have hmm := List.mem_of_mem_filter hy
    rcases List.mem_map.mp hmm with ⟨x, hx, rfl⟩
    simp only [beq_iff_eq, sweepCancel_jid]
    intro hxid
    have hxj : x = j := eq_of_jid_eq hnd hx hj hxid
    subst hxj
    rw [sweepCancel_of_not_queued hnq] at hkeep
    simp only [retentionKeep, hterm, Bool.true_and, hf, Bool.not_eq_true', decide_eq_false_iff_not] at hkeep
    rw [hcfg] at hkeep
    exact hkeep hold

theorem sweep_spec_witness :
    get_request_status (force_cleanup (run (init ⟨1, 0, 90, 300⟩)
      [QOp.submit 0, QOp.dispatch 1, QOp.finish 0 (WorkOutcome.ok ("p")) 2, QOp.submit 3]).1
      1000)
      (⟨0, JState.completed, 0, some 1, some 2, 0, some (WorkOutcome.ok ("p"))⟩ : Job).jid
      = none :=
  (sweep_spec ⟨1, 0, 90, 300⟩
      [QOp.submit 0, QOp.dispatch 1, QOp.finish 0 (WorkOutcome.ok ("p")) 2, QOp.submit 3]
      1000).2
    ⟨0, JState.completed, 0, some 1, some 2, 0, some (WorkOutcome.ok ("p"))⟩
    (by decide) rfl 2 rfl (by decide)

/-- C7: when the work function of a job raises, the dispatcher performs no
retry: finishing a `PROCESSING` job with an error sets its state to `FAILED`
with the error description captured into its result and
`finished_at = now`; and in every interleaving of queue operations a job id
fails at most once and its work function is invoked at most once, so the
queue never re-invokes the work for a failed job. -/
theorem fail_once_spec (cfg : QConfig) (ops : List QOp) (id : Nat) (e : String) (now : Nat) :
    (∀ j ∈ (run (init cfg) ops).1.jobs, j.jid = id → j.state = JState.processing →
       ∀ j' ∈ (dispatchFinish (run (init cfg) ops).1 id (WorkOutcome.err e) now).1.jobs,
         j'.jid = id → j'.state = JState.failed ∧ j'.result = some (WorkOutcome.err e) ∧
           j'.finishedAt = some now) ∧
    countFail (run (init cfg) ops).2 id ≤ 1 ∧
    countInvoke (run (init cfg) ops).2 id ≤ 1 := by
  obtain ⟨hwf, _, hi1, _, hf1, _⟩ := inv_reachable cfg ops
  have hnd := nodup_jids_of_pairwise hwf.1
  refine ⟨?_, hf1 id, hi1 id⟩
  intro j hj hjid hp j' hj' hjid'
  have hfind : findJob id (run (init cfg) ops).1.jobs = some j :=
    findJob_eq_some_of_mem hnd hj hjid
  simp only [dispatchFinish, hfind, hp, beq_self_eq_true, if_true] at hj'
  rcases updateById_of_jid_eq hnd (by intro x; rfl) hj' hjid' with ⟨x, hx, hxid, rfl⟩
  exact ⟨rfl, rfl, rfl⟩

theorem fail_once_spec_witness :
    (⟨0, JState.failed, 0, some 1, some 2, 0, some (WorkOutcome.err ("boom"))⟩ : Job).state
        = JState.failed ∧
    (⟨0, JState.failed, 0, some 1, some 2, 0, some (WorkOutcome.err ("boom"))⟩ : Job).result
        = some (WorkOutcome.err ("boom")) ∧
    (⟨0, JState.failed, 0, some 1, some 2, 0, some (WorkOutcome.err ("boom"))⟩ : Job).finishedAt
        = some 2 :=
  (fail_once_spec ⟨1, 0, 90, 300⟩ [QOp.submit 0, QOp.dispatch 1] 0 ("boom") 2).1
    ⟨0, JState.processing, 0, some 1, none, 0, none⟩ (by decide) rfl rfl
    ⟨0, JState.failed, 0, some 1, some 2, 0, some (WorkOutcome.err ("boom"))⟩ (by decide) rfl

end RQ

namespace App

/-- Shape of the dictionary returned by reportGenerator.generate_report as
consumed by process_report_request: a success flag and the optional error /
filename entries read with dict.get. -/
structure GenResult where
  success : Bool
  error : Option String
  filename : Option String
deriving DecidableEq, Repr

/-- Behaviour of the generate_report call as seen by its caller: it either
raises an exception (whose str() is the message) or returns a value — None /
a falsy dict (modelled as returns none) or a result dict. -/
inductive GenOutcome
  | raises (msg : String)
  | returns (result : Option GenResult)
deriving DecidableEq, Repr

/-- A value returned by process_report_request: either an error dictionary
or the success dictionary carrying result, form_values and pdf_filename. -/
inductive PRROut
  | errorOut (msg : String)
  | successOut (result : GenResult) (formValues : List (String × String))
      (pdfFilename : Option String)
deriving DecidableEq, Repr

/-- Embedding of process_report_request from app.py (lines 338-351): the
auth-credentials check, the call to generate_report (abstracted as a
GenOutcome parameter), the success/error dispatch on its returned dict, and
the blanket exception handler turning any raise into an error dictionary.
An empty string models a falsy auth_token / device_key (the route always
passes strings). -/
def process_report_request (auth_token device_key : String)
    (form_values : List (String × String)) (gen : GenOutcome) : PRROut :=
  if auth_token = "" ∨ device_key = "" then PRROut.errorOut ("AUTH_CREDENTIALS_REQUIRED")
  else
    match gen with
    | .raises e => PRROut.errorOut e
    | .returns none =>
      PRROut.errorOut ("No data received. Please try a different train or date.")
    | .returns (some r) =>
      if r.success then PRROut.successOut r form_values r.filename
      else PRROut.errorOut (r.error.getD ("Unknown error occurred"))

/-- C8: process_report_request is total and never raises, whatever
generate_report does: falsy credentials give the AUTH_CREDENTIALS_REQUIRED
error dict; a raised exception is caught and converted to an error dict with
its message; a missing/falsy result gives the no-data error; a result with a
falsy success flag gives its error entry (defaulted); a successful result
gives the success dict with result, form_values and pdf_filename; and every
output is one of these two dictionary shapes, so the dispatcher's
raised-exception path is never exercised by this work function. -/
theorem process_report_request_total (a d : String) (fv : List (String × String))
    (gen : GenOutcome) :
    ((a = "" ∨ d = "") →
       process_report_request a d fv gen = PRROut.errorOut ("AUTH_CREDENTIALS_REQUIRED")) ∧
    (¬(a = "" ∨ d = "") → ∀ e, gen = GenOutcome.raises e →
       process_report_request a d fv gen = PRROut.errorOut e) ∧
    (¬(a = "" ∨ d = "") → gen = GenOutcome.returns none →
       process_report_request a d fv gen =
         PRROut.errorOut ("No data received. Please try a different train or date.")) ∧
    (¬(a = "" ∨ d = "") → ∀ r, gen = GenOutcome.returns (some r) → r.success = false →
       process_report_request a d fv gen =
         PRROut.errorOut (r.error.getD ("Unknown error occurred"))) ∧
    (¬(a = "" ∨ d = "") → ∀ r, gen = GenOutcome.returns (some r) → r.success = true →
       process_report_request a d fv gen = PRROut.successOut r fv r.filename) ∧
    ((∃ m, process_report_request a d fv gen = PRROut.errorOut m) ∨
     (∃ r p, process_report_request a d fv gen = PRROut.successOut r fv p)) := by
  refine ⟨?_, ?_, ?_, ?_, ?_, ?_⟩
  · intro h
    simp [process_report_request, h]
  · intro h e hg
    simp [process_report_request, h, hg]
  · intro h hg
    simp [process_report_request, h, hg]
  · intro h r hg hs
    simp [process_report_request, h, hg, hs]
  · intro h r hg hs
    simp [process_report_request, h, hg, hs]
  · by_cases h : a = "" ∨ d = ""
    · exact Or.inl ⟨("AUTH_CREDENTIALS_REQUIRED"), by simp [process_report_request, h]⟩
    · match gen with
      | .raises e => exact Or.inl ⟨e, by simp [process_report_request, h]⟩
      | .returns none =>
        exact Or.inl ⟨("No data received. Please try a different train or date."),
          by simp [process_report_request, h]⟩
      | .returns (some r) =>
        by_cases hs : r.success = true
        · exact Or.inr ⟨r, r.filename, by simp [process_report_request, h, hs]⟩
        · simp only [Bool.not_eq_true] at hs
          exact Or.inl ⟨r.error.getD ("Unknown error occurred"),
            by simp [process_report_request, h, hs]⟩

theorem process_report_request_total_witness :
    process_report_request ("tok") ("key") []
        (GenOutcome.returns (some ⟨true, none, some ("report.pdf")⟩)) =
      PRROut.successOut ⟨true, none, some ("report.pdf")⟩ [] (some ("report.pdf")) :=
  (process_report_request_total ("tok") ("key") []
      (GenOutcome.returns (some ⟨true, none, some ("report.pdf")⟩))).2.2.2.2.1
    (by simp) ⟨true, none, some ("report.pdf")⟩ rfl rfl

end App

namespace App

/-- Substring containment on character lists (the Python `in` operator on
strings). -/
def listContains (pat : List Char) : List Char → Bool
  | [] => pat.isEmpty
  | c :: rest => pat.isPrefixOf (c :: rest) || listContains pat rest

/-- The filename validation of download_report (app.py lines 670-674):
rejected unless it ends in ".pdf", contains no "..", "/" or backslash, and is
at most 100 characters long. -/
def invalidFilename (f : String) : Bool :=
  !(([ '.', 'p', 'd', 'f' ]).isSuffixOf f.data) ||
  listContains ([ '.', '.' ]) f.data ||
  listContains ([ '/' ]) f.data ||
  listContains ([ '\\' ]) f.data ||
  decide (100 < f.data.length)

/-- The parts of the Flask session download_report reads: the stored
pdf_filename and whether form_values is present (truthy). -/
structure DlSession where
  pdfFilename : Option String
  hasFormValues : Bool
deriving DecidableEq, Repr

/-- A response of the download_report route: a 404, a redirect to home or to
the report page (with the stored error message), or the file being sent. -/
inductive DlResp
  | notFound
  | redirectHome (err : String)
  | redirectReport (err : String)
  | sendFile (path : String)
deriving DecidableEq, Repr

/-- Python truthiness test `not session_filename or session_filename !=
filename` from app.py line 678. -/
def sessionMismatch (sess : DlSession) (filename : String) : Bool :=
  match sess.pdfFilename with
  | none => true
  | some s => s == "" || s != filename

/-- The try-block of download_report (app.py lines 669-715); `Except.error`
marks a raised exception — in particular every abort(404) inside the block,
since Flask's abort raises an HTTPException, which is an Exception.  The
filesystem is abstracted as the os.path.exists oracle. -/
def downloadTry (filename : String) (sess : DlSession)
    (fsExists : String → Bool) : Except Unit DlResp :=
  if invalidFilename filename then Except.error ()
  else if sessionMismatch sess filename then
    if !sess.hasFormValues then Except.error ()
    else Except.ok (DlResp.redirectReport
      ("Unauthorized file access. Please generate a new report."))
  else if !(fsExists filename) then
    if !sess.hasFormValues then Except.error ()
    else Except.ok (DlResp.redirectHome
      ("Report file not found or has expired. Please generate a new report."))
  else Except.ok (DlResp.sendFile filename)

/-- Embedding of the download_report route (app.py lines 663-722): the
try-block, whose raised exceptions (including its own abort(404) calls) are
caught by the blanket `except Exception` handler at line 717, which answers
404 only when the session has no form_values and otherwise redirects home. -/
def download_report (filename : String) (sess : DlSession)
    (fsExists : String → Bool) : DlResp :=
  match downloadTry filename sess fsExists with
  | .ok r => r
  | .error _ =>
    if sess.hasFormValues then
      DlResp.redirectHome ("An error occurred while downloading the report.")
    else DlResp.notFound

/-- C9 counterexample: the claim says every invalid filename is refused
"with a 404"; but when the session carries form_values, the abort(404)
raised by the validation check is caught by the route's blanket
`except Exception` handler, which returns a redirect to the home page
instead of a 404.  Concretely, filename "evil" with a session holding
form_values yields a redirect, not a 404. -/
theorem download_report_404_cex :
    invalidFilename ("evil") = true ∧
    download_report ("evil") ⟨some ("a.pdf"), true⟩ (fun _ => true) =
      DlResp.redirectHome ("An error occurred while downloading the report.") ∧
    download_report ("evil") ⟨some ("a.pdf"), true⟩ (fun _ => true) ≠ DlResp.notFound := by
  refine ⟨by decide, by decide, by decide⟩

/-- C9 amended: download_report refuses — with a 404 when the session has no
form_values, and with a redirect to the home page otherwise — every filename
that does not end in ".pdf", or contains "..", "/" or a backslash, or is
longer than 100 characters; the refusal happens before any filesystem access
(the response does not depend on the os.path.exists oracle) and such a
request never reaches send_file, so no such filename can address any file
via this endpoint. -/
theorem download_report_refuses (f : String) (sess : DlSession)
    (e1 e2 : String → Bool)
    (h : (([ '.', 'p', 'd', 'f' ]).isSuffixOf f.data) = false ∨
         listContains ([ '.', '.' ]) f.data = true ∨
         listContains ([ '/' ]) f.data = true ∨
         listContains ([ '\\' ]) f.data = true ∨
         100 < f.data.length) :
    download_report f sess e1 = download_report f sess e2 ∧
    (sess.hasFormValues = false → download_report f sess e1 = DlResp.notFound) ∧
    (sess.hasFormValues = true → download_report f sess e1 =
      DlResp.redirectHome ("An error occurred while downloading the report.")) ∧
    ∀ p, download_report f sess e1 ≠ DlResp.sendFile p := by
  have hinv : invalidFilename f = true := by
    unfold invalidFilename
    rcases h with h | h | h | h | h
    · simp [h]
    · simp [h]
    · simp [h]
    · simp [h]
    · have h' : 100 < f.length := h
      simp [h']
  have ht1 : downloadTry f sess e1 = Except.error () := by
    simp [downloadTry, hinv]
  have ht2 : downloadTry f sess e2 = Except.error () := by
    simp [downloadTry, hinv]
  by_cases hfv : sess.hasFormValues = true
  · refine ⟨by simp [download_report, ht1, ht2], ?_, ?_, ?_⟩
    · intro hc
      rw [hfv] at hc
      simp at hc
    · intro _
      simp [download_report, ht1, hfv]
    · intro p
      simp [download_report, ht1, hfv]
  · simp only [Bool.not_eq_true] at hfv
    refine ⟨by simp [download_report, ht1, ht2], ?_, ?_, ?_⟩
    · intro _
      simp [download_report, ht1, hfv]
    · intro hc
      rw [hfv] at hc
      simp at hc
    · intro p
      simp [download_report, ht1, hfv]

theorem download_report_refuses_witness :
    download_report ("evil") ⟨none, false⟩ (fun _ => true) = DlResp.notFound :=
  (download_report_refuses ("evil") ⟨none, false⟩ (fun _ => true) (fun _ => false)
    (Or.inl (by decide))).2.1 rfl

end App

namespace App

/-- Python str.strip() whitespace class (the ASCII part). -/
def pyIsSpace (c : Char) : Bool :=
  ([ ' ', '\t', '\n', '\r', '\x0b', '\x0c' ]).contains c

/-- Python str.strip(): drop leading and trailing whitespace. -/
def pyStrip (l : List Char) : List Char :=
  ((l.dropWhile pyIsSpace).reverse.dropWhile pyIsSpace).reverse

/-- The text after the last comma: Python split(sep=comma)[-1]. -/
def afterLastComma (l : List Char) : List Char :=
  l.foldl (fun acc c => if c = (',') then [] else acc ++ [c]) []

/-- Python str.lower(), per character. -/
def lowerL (l : List Char) : List Char := l.map Char.toLower

/-- Python replace of all (non-overlapping, left-to-right) occurrences of
the two-character pattern am by the empty string. -/
def removeAm : List Char → List Char
  | [] => []
  | ('a') :: ('m') :: rest => removeAm rest
  | c :: rest => c :: removeAm rest

/-- Python replace of all occurrences of pm by the empty string. -/
def removePm : List Char → List Char
  | [] => []
  | ('p') :: ('m') :: rest => removePm rest
  | c :: rest => c :: removePm rest

/-- Python split on the colon character. -/
def splitColon : List Char → List (List Char)
  | [] => [[]]
  | c :: rest =>
    if c = (':') then [] :: splitColon rest
    else
      match splitColon rest with
      | [] => [[c]]
      | p :: ps => (c :: p) :: ps

/-- Digit run with single underscores allowed between digits, as accepted by
Python int(); accumulates the value. -/
def digitsValAux : List Char → Nat → Bool → Option Nat
  | [], acc, lastDigit => if lastDigit then some acc else none
  | c :: rest, acc, lastDigit =>
    if c.isDigit then digitsValAux rest (acc * 10 + (c.toNat - 48)) true
    else if c = ('_') && lastDigit then digitsValAux rest acc false
    else none

/-- Python int(str): strip whitespace, optional single sign, digits with
underscores between digits; None models a raised ValueError. -/
def pyInt (l : List Char) : Option Int :=
  match pyStrip l with
  | ('+') :: rest => (digitsValAux rest 0 false).map (fun n => (n : Int))
  | ('-') :: rest => (digitsValAux rest 0 false).map (fun n => -(n : Int))
  | rest => (digitsValAux rest 0 false).map (fun n => (n : Int))

/-- Python format spec 02d on an int: zero-pad to width two (the sign counts
towards the width). -/
def fmt02d (n : Int) : List Char :=
  if 0 ≤ n then
    let s := Nat.toDigits 10 n.toNat
    if s.length < 2 then ('0') :: s else s
  else ('-') :: Nat.toDigits 10 (-n).toNat

/-- The sentinel "99:99" returned on every fallback path. -/
def fallback : List Char := [ '9', '9', ':', '9', '9' ]

/-- The common tail of the am/pm branches of extract_time_for_sorting:
split the cleaned text on the colon, require exactly an hour and a minute
field, parse the hour with int() (any failure — the unpacking ValueError or
the int ValueError — is caught and yields the sentinel), apply the am/pm
hour adjustment, and format hour:02d with the raw minute text appended. -/
def formatFrom (adjust : Int → Int) (clean : List Char) : List Char :=
  match splitColon clean with
  | [h, m] =>
    match pyInt h with
    | some hv => fmt02d (adjust hv) ++ (':') :: m
    | none => fallback
  | _ => fallback

/-- Embedding of extract_time_for_sorting (app.py lines 878-903) on the
character list of the input. -/
def extractL (l : List Char) : List Char :=
  if l.isEmpty then fallback
  else
    let low := lowerL (pyStrip (afterLastComma l))
    if listContains ([ 'a', 'm' ]) low then
      formatFrom (fun hv => if hv = 12 then 0 else hv) (pyStrip (removeAm low))
    else if listContains ([ 'p', 'm' ]) low then
      formatFrom (fun hv => if hv ≠ 12 then hv + 12 else hv) (pyStrip (removePm low))
    else fallback

/-- Embedding of extract_time_for_sorting (app.py lines 878-903). -/
def extract_time_for_sorting (s : String) : String :=
  String.mk (extractL s.data)

end App

namespace App

/-- The fields get_common_trains reads from an API train dict via .get with
default empty string (a missing key is modelled by the empty string). -/
structure RawTrain where
  trip_number : String
  departure_date_time : String
  arrival_date_time : String
  travel_time : String
  origin_city_name : String
  destination_city_name : String
deriving DecidableEq, Repr

/-- A record returned by get_common_trains (after sort_time is popped). -/
structure TrainEntry where
  trip_number : String
  departure_time : String
  arrival_time : String
  travel_time : String
  origin_city : String
  destination_city : String
deriving DecidableEq, Repr

/-- An all_trains dictionary value: the returned record plus the transient
sort_time key. -/
structure TrainEntryS where
  entry : TrainEntry
  sort_time : String
deriving DecidableEq, Repr

/-- The dictionary value built for one train (app.py lines 847-855). -/
def mkEntryS (t : RawTrain) : TrainEntryS :=
  ⟨⟨t.trip_number, t.departure_date_time, t.arrival_date_time, t.travel_time,
    t.origin_city_name, t.destination_city_name⟩,
   extract_time_for_sorting t.departure_date_time⟩

/-- The record built for one train, without the sort key. -/
def mkEntry (t : RawTrain) : TrainEntry := (mkEntryS t).entry

/-- One day's loop of get_common_trains: insert each train whose trip_number
is truthy and not yet a key of the insertion-ordered dictionary. -/
def addTrains (acc : List TrainEntryS) (ts : List RawTrain) : List TrainEntryS :=
  ts.foldl (fun acc t =>
    if t.trip_number != "" && !(acc.any (fun e => e.entry.trip_number == t.trip_number)) then
      acc ++ [mkEntryS t]
    else acc) acc

/-- Python strict string comparison: lexicographic by code point, with a
proper prefix smaller than its extensions. -/
def listLtb : List Char → List Char → Bool
  | [], [] => false
  | [], _ :: _ => true
  | _ :: _, [] => false
  | a :: as, b :: bs => if a < b then true else if b < a then false else listLtb as bs

/-- Python string less-or-equal, as the sort comparator uses it. -/
def strLeb (a b : String) : Bool := !(listLtb b.data a.data)

/-- Python list.sort with key sort_time: a stable ascending sort by the key
string; insertion sort is stable, so it computes the same list. -/
def sortEntries (l : List TrainEntryS) : List TrainEntryS :=
  List.insertionSort (fun a b => strLeb a.sort_time b.sort_time = true) l

/-- Embedding of get_common_trains (app.py lines 841-876): day-1 trains
first, then day-2 trains (skipping already-present trip numbers), sorted by
sort_time, with the sort_time key removed from every record. -/
def get_common_trains (d1 d2 : List RawTrain) : List TrainEntry :=
  (sortEntries (addTrains (addTrains [] d1) d2)).map (fun e => e.entry)

theorem listLtb_irrefl : ∀ a : List Char, listLtb a a = false := by
  intro a
  induction a with
  | nil => rfl
  | cons c rest ih => simp [listLtb, ih]

theorem listLtb_trans : ∀ {a b c : List Char},
    listLtb a b = true → listLtb b c = true → listLtb a c = true := by
  intro a
  induction a with
  | nil =>
    intro b c hab hbc
    cases b with
    | nil => simp [listLtb] at hab
    | cons y ys =>
      cases c with
      | nil => simp [listLtb] at hbc
      | cons z zs => rfl
  | cons x xs ih =>
    intro b c hab hbc
    cases b with
    | nil => simp [listLtb] at hab
    | cons y ys =>
      cases c with
      | nil => simp [listLtb] at hbc
      | cons z zs =>
        simp only [listLtb] at hab hbc ⊢
        by_cases hxy : x < y
        · by_cases hyz : y < z
          · have hxz : x < z := lt_trans hxy hyz
            simp [hxz]
          · by_cases hzy : z < y
            · simp [hyz, hzy] at hbc
            · have hyzeq : y = z := le_antisymm (not_lt.mp hzy) (not_lt.mp hyz)
              rw [← hyzeq]
              simp [hxy]
        · by_cases hyx : y < x
          · simp [hxy, hyx] at hab
          · have hxyeq : x = y := le_antisymm (not_lt.mp hyx) (not_lt.mp hxy)
            subst hxyeq
            by_cases hxz : x < z
            · simp [hxz]
            · by_cases hzx : z < x
              · simp [hxz, hzx] at hbc
              · simp [hxz, hzx] at hab hbc ⊢
                exact ih hab hbc

theorem listLtb_asymm {a b : List Char} (h : listLtb a b = true) : listLtb b a = false := by
  by_contra hc
  simp only [Bool.not_eq_false] at hc
  have := listLtb_trans h hc
  rw [listLtb_irrefl] at this
  exact absurd this (by simp)

theorem listLtb_connex {a b : List Char} (hab : listLtb a b = false)
    (hba : listLtb b a = false) : a = b := by
  induction a generalizing b with
  | nil =>
    cases b with
    | nil => rfl
    | cons y ys => simp [listLtb] at hab
  | cons x xs ih =>
    cases b with
    | nil => simp [listLtb] at hba
    | cons y ys =>
      simp only [listLtb] at hab hba
      by_cases hxy : x < y
      · simp [hxy] at hab
      · by_cases hyx : y < x
        · simp [hyx, hxy] at hba
        · have hxyeq : x = y := le_antisymm (not_lt.mp hyx) (not_lt.mp hxy)
          subst hxyeq
          simp only [lt_irrefl, if_false] at hab hba
          rw [ih (by simpa using hab) (by simpa using hba)]

instance : IsTotal TrainEntryS (fun a b => strLeb a.sort_time b.sort_time = true) := by
  constructor
  intro a b
  by_cases h : listLtb b.sort_time.data a.sort_time.data = true
  · right
    simp [strLeb, listLtb_asymm h]
  · left
    simp only [Bool.not_eq_true] at h
    simp [strLeb, h]

instance : IsTrans TrainEntryS (fun a b => strLeb a.sort_time b.sort_time = true) := by
  constructor
  intro a b c hab hbc
  simp only [strLeb, Bool.not_eq_true'] at hab hbc ⊢
  by_contra hcon
  simp only [Bool.not_eq_false] at hcon
  by_cases h1 : listLtb b.sort_time.data c.sort_time.data = true
  · have h2 := listLtb_trans h1 hcon
    simp [h2] at hab
  · simp only [Bool.not_eq_true] at h1
    have heq : b.sort_time.data = c.sort_time.data := listLtb_connex h1 hbc
    rw [← heq] at hcon
    simp [hcon] at hab

end App

namespace App

theorem addTrains_nil (acc : List TrainEntryS) : addTrains acc [] = acc := rfl

theorem addTrains_cons (acc : List TrainEntryS) (t : RawTrain) (ts : List RawTrain) :
    addTrains acc (t :: ts) = addTrains
      (if t.trip_number != "" &&
          !(acc.any (fun e => e.entry.trip_number == t.trip_number)) then
        acc ++ [mkEntryS t]
      else acc) ts := rfl

theorem mem_addTrains_of_mem : ∀ (ts : List RawTrain) (acc : List TrainEntryS)
    (e : TrainEntryS), e ∈ acc → e ∈ addTrains acc ts := by
  intro ts
  induction ts with
  | nil => intro acc e he; exact he
  | cons t ts ih =>
    intro acc e he
    rw [addTrains_cons]
    apply ih
    split
    · exact List.mem_append_left _ he
    · exact he

theorem addTrains_origin : ∀ (ts : List RawTrain) (acc : List TrainEntryS)
    (e : TrainEntryS), e ∈ addTrains acc ts →
    e ∈ acc ∨ ∃ t ∈ ts, e = mkEntryS t ∧ t.trip_number ≠ "" ∧
      ∀ a ∈ acc, ¬ a.entry.trip_number = t.trip_number := by
  intro ts
  induction ts with
  | nil => intro acc e he; exact Or.inl he
  | cons t ts ih =>
    intro acc e he
    rw [addTrains_cons] at he
    by_cases hguard : (t.trip_number != "" &&
        !(acc.any (fun e => e.entry.trip_number == t.trip_number))) = true
    · rw [if_pos hguard] at he
      simp only [Bool.and_eq_true, bne_iff_ne, ne_eq, Bool.not_eq_true',
        List.any_eq_false, beq_iff_eq] at hguard
      rcases ih _ e he with hin | ⟨t', ht', he', hne', hall'⟩
      · rcases List.mem_append.mp hin with h | h
        · exact Or.inl h
        · have heq : e = mkEntryS t := by simpa using h
          exact Or.inr ⟨t, List.mem_cons_self _ _, heq, hguard.1, hguard.2⟩
      · exact Or.inr ⟨t', List.mem_cons_of_mem _ ht', he', hne',
          fun a ha => hall' a (List.mem_append_left _ ha)⟩
    · rw [if_neg hguard] at he
      rcases ih _ e he with hin | ⟨t', ht', he', hne', hall'⟩
      · exact Or.inl hin
      · exact Or.inr ⟨t', List.mem_cons_of_mem _ ht', he', hne', hall'⟩

theorem addTrains_covers : ∀ (ts : List RawTrain) (acc : List TrainEntryS)
    (t : RawTrain), t ∈ ts → t.trip_number ≠ "" →
    ∃ e ∈ addTrains acc ts, e.entry.trip_number = t.trip_number := by
  intro ts
  induction ts with
  | nil => intro acc t ht; simp at ht
  | cons t0 ts ih =>
    intro acc t ht hne
    rw [addTrains_cons]
    rcases List.mem_cons.mp ht with rfl | ht'
    · by_cases hguard : (t.trip_number != "" &&
          !(acc.any (fun e => e.entry.trip_number == t.trip_number))) = true
      · rw [if_pos hguard]
        refine ⟨mkEntryS t, mem_addTrains_of_mem _ _ _ ?_, rfl⟩
        simp
      · rw [if_neg hguard]
        have hany : acc.any (fun e => e.entry.trip_number == t.trip_number) = true := by
          by_contra hno
          apply hguard
          simp only [Bool.not_eq_true] at hno
          simp [hne, hno]
        rcases List.any_eq_true.mp hany with ⟨a, ha, haeq⟩
        simp only [beq_iff_eq] at haeq
        exact ⟨a, mem_addTrains_of_mem _ _ _ ha, haeq⟩
    · exact ih _ t ht' hne

theorem addTrains_nodup : ∀ (ts : List RawTrain) (acc : List TrainEntryS),
    (acc.map (fun e => e.entry.trip_number)).Nodup →
    ((addTrains acc ts).map (fun e => e.entry.trip_number)).Nodup := by
  intro ts
  induction ts with
  | nil => intro acc h; exact h
  | cons t ts ih =>
    intro acc h
    rw [addTrains_cons]
    apply ih
    split
    case isTrue hguard =>
      simp only [Bool.and_eq_true, bne_iff_ne, ne_eq, Bool.not_eq_true',
        List.any_eq_false, beq_iff_eq] at hguard
      simp only [List.map_append, List.map_cons, List.map_nil, List.nodup_append]
      refine ⟨h, List.nodup_singleton _, ?_⟩
      intro x hx
      rcases List.mem_map.mp hx with ⟨a, ha, rfl⟩
      simp only [List.mem_singleton]
      intro hco
      exact hguard.2 a ha (by rw [hco]; rfl)
    case isFalse => exact h

theorem addTrains_key : ∀ (ts : List RawTrain) (acc : List TrainEntryS),
    (∀ e ∈ acc, e.sort_time = extract_time_for_sorting e.entry.departure_time) →
    ∀ e ∈ addTrains acc ts, e.sort_time = extract_time_for_sorting e.entry.departure_time := by
  intro ts acc hacc e he
  rcases addTrains_origin ts acc e he with hin | ⟨t, _, rfl, _, _⟩
  · exact hacc e hin
  · rfl

end App

namespace App

/-- Written from the claim's words: a zero-padded 24-hour time of the form
HH:MM, i.e. exactly two digits giving an hour below 24, a colon, and two
digits giving a minute below 60. -/
def specZeroPaddedHHMM (s : String) : Bool :=
  match s.data with
  | [h1, h2, c, m1, m2] =>
    h1.isDigit && h2.isDigit && c == (':') && m1.isDigit && m2.isDigit &&
    decide ((h1.toNat - 48) * 10 + (h2.toNat - 48) < 24) &&
    decide ((m1.toNat - 48) * 10 + (m2.toNat - 48) < 60)
  | _ => false

/-- C10 counterexample: the claim says every successfully parsed input yields
a zero-padded 24-hour "HH:MM" and that get_common_trains puts unparseable
departure times last.  But the code never zero-pads or validates the minute
text and never range-checks the hour, so "9:5 am" yields "09:5" and
"13:00 pm" yields "25:00" (both parsed, neither a zero-padded 24-hour HH:MM);
and a parsed key can sort after the "99:99" sentinel: with day-1 trains T1
(departure "99:zz am", parsed to key "99:zz") and T2 (departure "hello",
unparseable, key "99:99"), the returned list puts the unparseable T2 before
the parsed T1. -/
theorem extract_time_cex :
    extract_time_for_sorting ("9:5 am") = ("09:5") ∧
    ("9:5 am" : String) ≠ ("") ∧
    extract_time_for_sorting ("9:5 am") ≠ ("99:99") ∧
    specZeroPaddedHHMM (extract_time_for_sorting ("9:5 am")) = false ∧
    extract_time_for_sorting ("13:00 pm") = ("25:00") ∧
    specZeroPaddedHHMM (extract_time_for_sorting ("13:00 pm")) = false ∧
    get_common_trains
      [⟨("T1"), ("99:zz am"), ("a"), ("t"), ("o"), ("d")⟩,
       ⟨("T2"), ("hello"), ("a"), ("t"), ("o"), ("d")⟩] []
      = [mkEntry ⟨("T2"), ("hello"), ("a"), ("t"), ("o"), ("d")⟩,
         mkEntry ⟨("T1"), ("99:zz am"), ("a"), ("t"), ("o"), ("d")⟩] ∧
    extract_time_for_sorting ("hello") = ("99:99") ∧
    extract_time_for_sorting ("99:zz am") = ("99:zz") := by
  refine ⟨by decide, by decide, by decide, by decide, by decide, by decide, by decide,
    by decide, by decide⟩

theorem formatFrom_shape (g : Int → Int) (clean : List Char) :
    formatFrom g clean = fallback ∨
    ∃ hv m, formatFrom g clean = fmt02d hv ++ (':') :: m := by
  unfold formatFrom
  split
  · split
    · refine Or.inr ⟨_, _, rfl⟩
    · exact Or.inl rfl
  · exact Or.inl rfl

theorem extractL_shape (l : List Char) :
    extractL l = fallback ∨ ∃ hv m, extractL l = fmt02d hv ++ (':') :: m := by
  unfold extractL
  by_cases he : l.isEmpty = true
  · rw [if_pos he]
    exact Or.inl rfl
  · rw [if_neg he]
    by_cases h1 : listContains ([ 'a', 'm' ]) (lowerL (pyStrip (afterLastComma l))) = true
    · simp only [h1, if_true]
      exact formatFrom_shape _ _
    · simp only [h1, Bool.false_eq_true, if_false]
      by_cases h2 : listContains ([ 'p', 'm' ]) (lowerL (pyStrip (afterLastComma l))) = true
      · simp only [h2, if_true]
        exact formatFrom_shape _ _
      · simp only [h2, Bool.false_eq_true, if_false]
        left
        trivial

theorem extractL_no_marker (l : List Char)
    (h1 : listContains ([ 'a', 'm' ]) (lowerL (pyStrip (afterLastComma l))) = false)
    (h2 : listContains ([ 'p', 'm' ]) (lowerL (pyStrip (afterLastComma l))) = false) :
    extractL l = fallback := by
  unfold extractL
  by_cases he : l.isEmpty = true
  · rw [if_pos he]
  · rw [if_neg he]
    simp only [h1, h2, Bool.false_eq_true, if_false]

/-- C10 amended: extract_time_for_sorting is total and never raises: it
returns "99:99" when the input is empty, when the text after the last comma
has no am/pm marker, or when splitting/int-parsing fails; otherwise it
returns the hour formatted with Python's 02d spec (12am mapped to 00, 12pm
kept as 12) followed by a colon and the raw minute text — which is a
zero-padded 24-hour HH:MM only when the hour is in range and the minute text
is two digits.  get_common_trains returns a list deduplicated by trip_number
with day-1 entries taking precedence over day-2, sorted ascending (stably)
by this key — the "99:99" sentinel need not come last when a parsed key
exceeds it — with the sort_time key removed from every returned record. -/
theorem extract_and_common_trains_spec :
    extract_time_for_sorting ("") = ("99:99") ∧
    (∀ s : String,
       listContains ([ 'a', 'm' ]) (lowerL (pyStrip (afterLastComma s.data))) = false →
       listContains ([ 'p', 'm' ]) (lowerL (pyStrip (afterLastComma s.data))) = false →
       extract_time_for_sorting s = ("99:99")) ∧
    (∀ s : String, extract_time_for_sorting s = ("99:99") ∨
       ∃ hv m, extractL s.data = fmt02d hv ++ (':') :: m) ∧
    (extract_time_for_sorting ("12:30 am") = ("00:30") ∧
     extract_time_for_sorting ("12:30 pm") = ("12:30")) ∧
    (∀ d1 d2 : List RawTrain,
       ((get_common_trains d1 d2).map (fun e => e.trip_number)).Nodup) ∧
    (∀ d1 d2 : List RawTrain, ∀ e ∈ get_common_trains d1 d2,
       (∃ t ∈ d1, t.trip_number = e.trip_number ∧ t.trip_number ≠ ("")) →
       ∃ t ∈ d1, e = mkEntry t) ∧
    (∀ d1 d2 : List RawTrain, (get_common_trains d1 d2).Pairwise (fun a b =>
       strLeb (extract_time_for_sorting a.departure_time)
         (extract_time_for_sorting b.departure_time) = true)) := by
  refine ⟨by decide, ?_, ?_, ⟨by decide, by decide⟩, ?_, ?_, ?_⟩
  · intro s h1 h2
    show String.mk (extractL s.data) = ("99:99")
    rw [extractL_no_marker s.data h1 h2]
    decide
  · intro s
    rcases extractL_shape s.data with h | h
    · left
      show String.mk (extractL s.data) = ("99:99")
      rw [h]
      decide
    · exact Or.inr h
  · intro d1 d2
    unfold get_common_trains
    rw [List.map_map]
    have hperm := List.perm_insertionSort
      (fun a b : TrainEntryS => strLeb a.sort_time b.sort_time = true)
      (addTrains (addTrains [] d1) d2)
    have hpm := hperm.map (fun e : TrainEntryS => e.entry.trip_number)
    exact hpm.nodup_iff.mpr (addTrains_nodup d2 _ (addTrains_nodup d1 [] (by simp)))
  · intro d1 d2 e he hex
    rcases hex with ⟨t1, ht1, heq1, hne1⟩
    rcases List.mem_map.mp he with ⟨es, hes, rfl⟩
    have hperm := List.perm_insertionSort
      (fun a b : TrainEntryS => strLeb a.sort_time b.sort_time = true)
      (addTrains (addTrains [] d1) d2)
    have hbase : es ∈ addTrains (addTrains [] d1) d2 := hperm.mem_iff.mp hes
    rcases addTrains_origin d2 _ es hbase with hin | ⟨t2, _, rfl, _, hall2⟩
    · rcases addTrains_origin d1 [] es hin with hnil | ⟨t, ht, rfl, _, _⟩
      · simp at hnil
      · exact ⟨t, ht, rfl⟩
    · exfalso
      obtain ⟨a, ha, haeq⟩ := addTrains_covers d1 [] t1 ht1 hne1
      apply hall2 a ha
      rw [haeq, heq1]
      rfl
  · intro d1 d2
    have hsorted := List.sorted_insertionSort
      (fun a b : TrainEntryS => strLeb a.sort_time b.sort_time = true)
      (addTrains (addTrains [] d1) d2)
    have hperm := List.perm_insertionSort
      (fun a b : TrainEntryS => strLeb a.sort_time b.sort_time = true)
      (addTrains (addTrains [] d1) d2)
    have hkey : ∀ e ∈ sortEntries (addTrains (addTrains [] d1) d2),
        e.sort_time = extract_time_for_sorting e.entry.departure_time := by
      intro e hes
      refine addTrains_key d2 _ ?_ e (hperm.mem_iff.mp hes)
      exact addTrains_key d1 [] (by intro e' he'; simp at he')
    unfold get_common_trains
    rw [List.pairwise_map]
    refine List.Pairwise.imp_of_mem ?_ hsorted
    intro a b ha hb hr
    rw [← hkey a ha, ← hkey b hb]
    exact hr

theorem extract_and_common_trains_spec_witness :
    extract_time_for_sorting ("hello") = ("99:99") :=
  extract_and_common_trains_spec.2.1 ("hello") (by decide) (by decide)

end App
